import Mathlib

/-!
Verification of the cluster-scheduling core of `devito/ir/clusters/algorithms.py`.

The Python module transforms a list of lowered equations into an ordered
sequence of `Cluster`s: direction enforcement (`enforce`, run through the
divide-and-conquer `Queue`), heuristic topological sorting of sibling
`ClusterGroup`s (`build_dag`, `toposort`, `aggregate`), lifting (`lift`),
fusion (`fuse`) and guarding (`guard`), composed by `clusterize`.

This file gives a shallow embedding of those routines and proves, or refutes,
the specification's claims about them.  Routines defined in modules of the
repository that are not part of the source under verification (the dependence
`Scope`, the `Cluster`/`ClusterGroup` value types, `DAG.topological_sort`,
`IntervalGroup.lift`, `Cluster.from_clusters`, `Dimension._defines`) are
modelled from the specification text, as flagged in their doc comments.

Machine-level caveat reflected in the model: in `enforce` the Python line
`directions.update({d.Forward for d in scope.d_flow.cause & candidates})`
builds a set of attribute accesses `d.Forward` (a typo for the dict
`{d: Forward for d in ...}`); a `Dimension` has no attribute `Forward`, so the
line raises `AttributeError` whenever the set being iterated is non-empty.
The embedding returns `Except.error "AttributeError: d.Forward"` exactly
there; all other paths are total.
-/

namespace Devito

/-- Iteration direction of a dimension, per `devito.ir.support`. -/
inductive Direction
  | Forward
  | Backward
  | Any
deriving DecidableEq, Repr

/-- Modelled from the spec: a per-dimension accumulated offset interval,
"otherwise opaque to this core"; `lifted` records the contracted-then-
reinserted interval produced by `IntervalGroup.lift` (not under `src/`). -/
inductive Interval
  | base : Nat → Interval
  | lifted : Interval → Interval
deriving DecidableEq, Repr

/-- Modelled from the spec: a `Dimension` is an opaque identity whose
`_defines` set (not under `src/`) is "itself plus siblings sharing the
parent"; we store the sibling identifiers directly. -/
structure Dim where
  id : Nat
  sibs : List Nat
deriving DecidableEq, Repr

/-- `Dimension._defines`, modelled as the dimension itself plus its stored
siblings. -/
def Dim.defines (d : Dim) : List Nat :=
  d.id :: d.sibs

/-- An `IterationInterval`: (dimension, direction, interval) triple. -/
structure IterationInterval where
  dim : Dim
  dir : Direction
  intrv : Interval
deriving DecidableEq, Repr

/-- A data symbol (a devito `Function`); `is_Array` marks temporary arrays. -/
structure Sym where
  id : Nat
  is_Array : Bool
deriving DecidableEq, Repr

/-- One access of a symbol: per-dimension integer offsets of its index
expression, keyed by dimension identifier (absent dimension = offset 0). -/
structure Access where
  sym : Sym
  idx : List (Nat × Int)
deriving DecidableEq, Repr

/-- Offset of an access along dimension `d` (0 when the dimension is absent). -/
def idxAt (idx : List (Nat × Int)) (d : Nat) : Int :=
  (idx.lookup d).getD 0

/-- An atomic boolean condition appearing in a guard: either the default
`CondEq(parent % factor, 0)` of `devito.symbolics.CondEq`, or an explicit
user predicate kept opaque. -/
inductive Cond
  | condEq : Nat → Nat → Cond
  | pred : Nat → Cond
deriving DecidableEq, Repr

/-- A guard value: a single condition, or an unevaluated `sympy.And` of a
list of conditions.  `sympy.And` applied to exactly one argument returns that
argument, hence the two constructors. -/
inductive GuardExpr
  | single : Cond → GuardExpr
  | conj : List Cond → GuardExpr
deriving DecidableEq, Repr

/-- A conditional-dimension annotation on an equation: its parent dimension,
an optional explicit predicate, and the modulo factor for the default
condition. -/
structure CondDim where
  parentId : Nat
  condition : Option Cond
  factor : Nat
deriving DecidableEq, Repr

/-- Per-symbol accessed-index intervals; used only for contraction during
lifting, otherwise opaque (modelled from the spec). -/
structure DataSpace where
  parts : List (Sym × List (Nat × Interval))
deriving DecidableEq, Repr

/-- `DataSpace.project(key)`: keep only the dimensions satisfying `key`. -/
def DataSpace.project (key : Nat → Bool) (ds : DataSpace) : DataSpace :=
  ⟨ds.parts.map (fun p => (p.1, p.2.filter (fun q => key q.1)))⟩

/-- An `IterationSpace`: ordered (dimension, interval) entries, opaque
auxiliary sub-iterators, and a per-dimension direction dictionary. -/
structure IterationSpace where
  intervals : List (Dim × Interval)
  sub_iterators : Nat
  directions : List (Nat × Direction)
deriving DecidableEq, Repr

/-- Direction recorded for dimension id `d` (`Any` when absent, i.e.
unconstrained). -/
def IterationSpace.dirOf (s : IterationSpace) (d : Nat) : Direction :=
  (s.directions.lookup d).getD Direction.Any

/-- The ordered `IterationInterval` view of an iteration space. -/
def IterationSpace.itintervals (s : IterationSpace) : List IterationInterval :=
  s.intervals.map (fun p => ⟨p.1, s.dirOf p.1.id, p.2⟩)

/-- `IterationSpace.project(key)`: keep only the dimensions satisfying
`key`. -/
def IterationSpace.project (key : Nat → Bool) (s : IterationSpace) :
    IterationSpace :=
  ⟨s.intervals.filter (fun p => key p.1.id), s.sub_iterators, s.directions⟩

/-- A lowered equation: identity, read/write accesses, capability flags,
conditional-dimension annotations, and its own iteration and data spaces. -/
structure LoweredEq where
  eid : Nat
  reads : List Access
  writes : List Access
  is_Tensor : Bool
  is_Increment : Bool
  conditionals : List CondDim
  ispace : IterationSpace
  dspace : DataSpace
deriving DecidableEq, Repr

/-- A `Cluster`: equations plus one iteration space, one data space and one
guard map. -/
structure Cluster where
  exprs : List LoweredEq
  ispace : IterationSpace
  dspace : DataSpace
  guards : List (Nat × GuardExpr)
deriving DecidableEq, Repr

/-- `Cluster.itintervals`. -/
def Cluster.itintervals (c : Cluster) : List IterationInterval :=
  c.ispace.itintervals

/-- `Cluster.functions`: every symbol the cluster's equations read or
write. -/
def Cluster.functions (c : Cluster) : List Sym :=
  (c.exprs.map (fun e => (e.reads ++ e.writes).map Access.sym)).flatten

/-- `Cluster.used_dimensions`: identifiers of every dimension indexing an
access of the cluster's equations. -/
def Cluster.used_dimensions (c : Cluster) : List Nat :=
  (c.exprs.map (fun e =>
    ((e.reads ++ e.writes).map (fun a => a.idx.map Prod.fst)).flatten)).flatten

/-- The flattened expression list of a cluster sequence
(`flatten(c.exprs for c in clusters)`). -/
def clustersExprs (cs : List Cluster) : List LoweredEq :=
  (cs.map Cluster.exprs).flatten

/-- A `ClusterGroup`: an ordered cluster sequence plus the iteration-interval
tuple it was built at (modelled from the spec; `cluster.py` is not under
`src/`). -/
structure ClusterGroup where
  clusters : List Cluster
  itintervals : List IterationInterval
deriving DecidableEq, Repr

/-- The flattened expression list of a group. -/
def ClusterGroup.exprs (g : ClusterGroup) : List LoweredEq :=
  (g.clusters.map Cluster.exprs).flatten

/-- One dependence: producer/consumer equation identities, the symbol, and
the two index maps. -/
structure Dep where
  srcE : Nat
  snkE : Nat
  symId : Nat
  srcIdx : List (Nat × Int)
  snkIdx : List (Nat × Int)
deriving DecidableEq, Repr

/-- Modelled from the spec: the cause of a dependence is "the set of
dimensions whose index differs between the producer and consumer access". -/
def Dep.cause (d : Dep) : List Nat :=
  ((d.srcIdx.map Prod.fst) ++ (d.snkIdx.map Prod.fst)).filter
    (fun k => idxAt d.srcIdx k != idxAt d.snkIdx k)

/-- Flow dependences contributed by the ordered pair `(e1, e2)` (`e1` the
earlier equation): a symbol `e1` writes and `e2` reads. -/
def flowDepsOf (e1 e2 : LoweredEq) : List Dep :=
  (e1.writes.map (fun w =>
    (e2.reads.filter (fun r => r.sym == w.sym)).map
      (fun r => Dep.mk e1.eid e2.eid w.sym.id w.idx r.idx))).flatten

/-- Anti dependences contributed by the ordered pair `(e1, e2)`: a symbol
`e1` reads and `e2` writes. -/
def antiDepsOf (e1 e2 : LoweredEq) : List Dep :=
  (e1.reads.map (fun r =>
    (e2.writes.filter (fun w => w.sym == r.sym)).map
      (fun w => Dep.mk e1.eid e2.eid r.sym.id r.idx w.idx))).flatten

/-- All ordered pairs `(es[i], es[j])` with `i < j`. -/
def ordPairs : List LoweredEq → List (LoweredEq × LoweredEq)
  | [] => []
  | e :: es => es.map (fun x => (e, x)) ++ ordPairs es

/-- Modelled from the spec: the dependence `Scope` over a set of equations
classifies, "for every pair of distinct equations", flow and anti
dependences (`devito.ir.support.Scope` is not under `src/`). -/
structure Scope where
  d_flow : List Dep
  d_anti : List Dep
deriving DecidableEq, Repr

/-- `Scope(exprs=es)`. -/
def Scope.ofExprs (es : List LoweredEq) : Scope :=
  ⟨((ordPairs es).map (fun p => flowDepsOf p.1 p.2)).flatten,
   ((ordPairs es).map (fun p => antiDepsOf p.1 p.2)).flatten⟩

/-- Union of the causes of a dependence list. -/
def causesOf (ds : List Dep) : List Nat :=
  (ds.map Dep.cause).flatten

/-- `scope.d_flow.cause`. -/
def Scope.flowCause (s : Scope) : List Nat :=
  causesOf s.d_flow

/-- `scope.d_anti.cause`. -/
def Scope.antiCause (s : Scope) : List Nat :=
  causesOf s.d_anti

/-- `scope.writes`: the symbols written by the equations. -/
def writesOf (es : List LoweredEq) : List Sym :=
  (es.map (fun e => e.writes.map Access.sym)).flatten

/-- `Scope` of a cluster group (`cg.scope`). -/
def ClusterGroup.scope (g : ClusterGroup) : Scope :=
  Scope.ofExprs g.exprs

/-- Non-empty intersection test on dimension-identifier lists. -/
def hasCommon (a b : List Nat) : Bool :=
  a.any (fun x => b.contains x)

/-- Non-empty intersection test on symbol lists
(`set(c.functions) & set(i.scope.writes)`). -/
def hasCommonSym (a b : List Sym) : Bool :=
  a.any (fun x => b.contains x)

end Devito

namespace Devito

/-- Python dict update `{**old, **upd}`, as an association list: entries of
`old` with overridden values, followed by the entries of `upd` whose key is
new.  Only lookups are ever observed. -/
def updAssoc (old upd : List (Nat × Direction)) : List (Nat × Direction) :=
  old.map (fun p => match upd.lookup p.1 with
    | some v => (p.1, v)
    | none => p) ++
  upd.filter (fun p => (old.lookup p.1).isNone)

/-- `enforce`, lines 204-207: the direction map computed at fall-through,
`Backward` on `antiCauses ∩ candidates` and `Forward` on every other
candidate (the flow line is unreachable without raising, see `enforce`). -/
def mkDirections (anti cand : List Nat) : List (Nat × Direction) :=
  cand.map (fun d =>
    (d, if anti.contains d then Direction.Backward else Direction.Forward))

/-- `enforce`, lines 210-214: rebuild a cluster's iteration space with the
direction map merged in; expressions and data space are kept, the guard
dictionary is reset (the `Cluster` constructor default). -/
def applyDirections (dirs : List (Nat × Direction)) (c : Cluster) : Cluster :=
  ⟨c.exprs,
   ⟨c.ispace.intervals, c.ispace.sub_iterators,
    updAssoc c.ispace.directions dirs⟩,
   c.dspace, []⟩

/-- `enforce`, lines 221-226: widen a backlogged cluster by lifting the
intervals of the known-flow-break dimensions and marking them `Any`
(`IntervalGroup.lift` modelled from the spec as the contracted-then-
reinserted interval, in place). -/
def widenCluster (kfb : List Nat) (c : Cluster) : Cluster :=
  ⟨c.exprs,
   ⟨c.ispace.intervals.map (fun p =>
      if kfb.contains p.1.id then (p.1, Interval.lifted p.2) else p),
    c.ispace.sub_iterators,
    updAssoc c.ispace.directions (kfb.map (fun d => (d, Direction.Any)))⟩,
   c.dspace, []⟩

/-- `enforce`, line 198: `(scope.d_flow.cause & scope.d_anti.cause) &
candidates`, as the sublist of `candidates` lying in both cause sets. -/
def requireFB (cs : List Cluster) (cand : List Nat) : List Nat :=
  let s := Scope.ofExprs (clustersExprs cs)
  cand.filter (fun d => s.flowCause.contains d && s.antiCause.contains d)

/-- The tail-recursive peeling phase of `enforce` (lines 198-202): while the
group exhibits a flow+anti conflict on a candidate dimension and more than
one cluster remains, move the last cluster onto the front of the backlog and
retry, remembering the conflict set of the most recent peel.  An empty
backlog component encodes Python's `backlog is None` (the backlog, once
started, is never empty). -/
def peelLoop (cand : List Nat) (cs bl : List Cluster) (kfb : List Nat) :
    List Cluster × List Cluster × List Nat :=
  if h : requireFB cs cand ≠ [] ∧ 1 < cs.length then
    peelLoop cand cs.dropLast
      (cs.getLast (by
        intro hnil
        rw [hnil] at h
        simp at h) :: bl) (requireFB cs cand)
  else (cs, bl, kfb)
termination_by cs.length
decreasing_by
  simp only [List.length_dropLast]
  omega

/-- The peeling phase splits the group: the kept clusters followed by the
backlog reproduce the input (in original order), the kept part is empty only
if the input was, and every recorded conflict dimension is a candidate. -/
theorem peelLoop_spec (cand : List Nat) (cs bl : List Cluster)
    (kfb : List Nat) :
    (peelLoop cand cs bl kfb).1 ++ (peelLoop cand cs bl kfb).2.1 =
      cs ++ bl ∧
    ((peelLoop cand cs bl kfb).1 = [] → cs = []) ∧
    (∀ d ∈ (peelLoop cand cs bl kfb).2.2, d ∈ cand ∨ d ∈ kfb) := by
  induction cs, bl, kfb using peelLoop.induct cand with
  | case1 cs bl kfb h ih =>
    have hne : cs ≠ [] := by
      intro hnil
      rw [hnil] at h
      simp at h
    rw [peelLoop, dif_pos h]
    refine ⟨?_, ?_, ?_⟩
    · rw [ih.1, List.append_cons, List.dropLast_append_getLast hne]
    · intro hr
      have hd := ih.2.1 hr
      have hlen : cs.length - 1 = 0 := by
        rw [← List.length_dropLast, hd]
        rfl
      have h2 := h.2
      exact False.elim (by omega)
    · intro d hd
      rcases ih.2.2 d hd with h1 | h1
      · exact Or.inl h1
      · simp only [requireFB] at h1
        exact Or.inl (List.mem_of_mem_filter h1)
  | case2 cs bl kfb h =>
    rw [peelLoop, dif_neg h]
    exact ⟨rfl, fun h => h, fun d hd => Or.inr hd⟩

/-- Placeholder iteration interval for the total `getLastD` view of
`prefix[-1]` (only read under a non-empty-prefix guard). -/
def iiDefault : IterationInterval :=
  ⟨⟨0, []⟩, Direction.Any, Interval.base 0⟩

/-- `enforce` (lines 178-228): replace `Any` directions with `Forward` or
`Backward`.  An empty iteration-space position is left unchanged.  After the
peeling phase, the fall-through computes the direction map; the Python line
206 set-comprehension typo raises `AttributeError` whenever
`scope.d_flow.cause & candidates` is non-empty, modelled by the `error`
branch.  A non-empty backlog is widened and enforced recursively, its result
concatenated after the non-backlog output. -/
def enforce (cs : List Cluster) (pfx : List IterationInterval) :
    Except String (List Cluster) :=
  if hp : pfx = [] then .ok cs
  else
    let cand := (pfx.getLastD iiDefault).dim.defines
    let rem := (peelLoop cand cs [] []).1
    let bl := (peelLoop cand cs [] []).2.1
    let kfb := (peelLoop cand cs [] []).2.2
    let scope := Scope.ofExprs (clustersExprs rem)
    if hasCommon scope.flowCause cand then .error "AttributeError: d.Forward"
    else
      let processed := rem.map (applyDirections (mkDirections scope.antiCause cand))
      if hbl : bl = [] then .ok processed
      else
        match enforce (bl.map (widenCluster kfb)) pfx with
        | .error e => .error e
        | .ok r => .ok (processed ++ r)
termination_by cs.length
decreasing_by
  have hs := peelLoop_spec ((pfx.getLastD iiDefault).dim.defines) cs [] []
  have hjoin := hs.1
  have hrem := hs.2.1
  simp only [List.append_nil] at hjoin
  have hlen : (peelLoop ((pfx.getLastD iiDefault).dim.defines) cs [] []).1.length +
      (peelLoop ((pfx.getLastD iiDefault).dim.defines) cs [] []).2.1.length =
      cs.length := by
    rw [← List.length_append, hjoin]
  have hrm : (peelLoop ((pfx.getLastD iiDefault).dim.defines) cs [] []).1 ≠ [] := by
    intro hnil
    have hcs := hrem hnil
    rw [hnil] at hjoin
    simp only [List.nil_append, List.append_nil] at hjoin
    exact hbl (hjoin.trans hcs)
  have h1 : 1 ≤ (peelLoop ((pfx.getLastD iiDefault).dim.defines) cs [] []).1.length := by
    cases hh : (peelLoop ((pfx.getLastD iiDefault).dim.defines) cs [] []).1 with
    | nil => exact absurd hh hrm
    | cons a l => simp [hh]
  simp only [List.length_map]
  omega

/-- The run of leading elements whose key equals `k`, and the remainder
(used to model `itertools.groupby`). -/
def spanKey {α κ : Type} [DecidableEq κ] (key : α → κ) (k : κ) :
    List α → List α × List α
  | [] => ([], [])
  | x :: xs =>
    if key x = k then
      ((x :: (spanKey key k xs).1), (spanKey key k xs).2)
    else ([], x :: xs)

theorem spanKey_snd_length_le {α κ : Type} [DecidableEq κ] (key : α → κ)
    (k : κ) : ∀ l : List α, (spanKey key k l).2.length ≤ l.length := by
  intro l
  induction l with
  | nil => simp [spanKey]
  | cons x xs ih =>
    simp only [spanKey]
    split
    · exact Nat.le_trans ih (Nat.le_succ _)
    · simp

theorem spanKey_append_eq {α κ : Type} [DecidableEq κ] (key : α → κ) (k : κ)
    (l : List α) : (spanKey key k l).1 ++ (spanKey key k l).2 = l := by
  induction l with
  | nil => simp [spanKey]
  | cons x xs ih =>
    simp only [spanKey]
    split
    · simp [ih]
    · simp

theorem spanKey_fst_key {α κ : Type} [DecidableEq κ] (key : α → κ) (k : κ)
    (l : List α) : ∀ x ∈ (spanKey key k l).1, key x = k := by
  induction l with
  | nil => simp [spanKey]
  | cons x xs ih =>
    simp only [spanKey]
    split
    · next h =>
      intro y hy
      rcases List.mem_cons.mp hy with h1 | h1
      · rw [h1]; exact h
      · exact ih y h1
    · simp

theorem spanKey_snd_head {α κ : Type} [DecidableEq κ] (key : α → κ) (k : κ)
    (l : List α) : ∀ y, (spanKey key k l).2.head? = some y → key y ≠ k := by
  induction l with
  | nil => simp [spanKey]
  | cons x xs ih =>
    simp only [spanKey]
    split
    · exact ih
    · next h =>
      intro y hy
      simp only [List.head?_cons, Option.some.injEq] at hy
      rw [← hy]
      exact h

/-- `itertools.groupby(elements, key=...)`: maximal runs of consecutive
elements sharing one key value. -/
def pyGroupBy {α κ : Type} [DecidableEq κ] (key : α → κ) : List α → List (List α)
  | [] => []
  | x :: xs =>
    (x :: (spanKey key (key x) xs).1) :: pyGroupBy key (spanKey key (key x) xs).2
termination_by l => l.length
decreasing_by
  have := spanKey_snd_length_le key (key x) xs
  simp only [List.length_cons]
  omega

theorem pyGroupBy_flatten {α κ : Type} [DecidableEq κ] (key : α → κ) :
    ∀ l : List α, (pyGroupBy key l).flatten = l := by
  suffices h : ∀ (n : Nat) (l : List α), l.length = n →
      (pyGroupBy key l).flatten = l by
    exact fun l => h l.length l rfl
  intro n
  induction n using Nat.strong_induction_on with
  | _ n ih =>
    intro l hn
    cases l with
    | nil => simp [pyGroupBy]
    | cons x xs =>
      rw [pyGroupBy]
      have hlt : (spanKey key (key x) xs).2.length < n := by
        have := spanKey_snd_length_le key (key x) xs
        simp only [← hn, List.length_cons]
        omega
      simp only [List.flatten_cons, List.cons_append,
        ih (spanKey key (key x) xs).2.length hlt _ rfl]
      rw [spanKey_append_eq]

theorem pyGroupBy_sub {α κ : Type} [DecidableEq κ] (key : α → κ)
    (l : List α) : ∀ g ∈ pyGroupBy key l, ∀ x ∈ g, x ∈ l := by
  intro g hg x hx
  rw [← pyGroupBy_flatten key l]
  exact List.mem_flatten.mpr ⟨g, hg, hx⟩

theorem pyGroupBy_ne_nil {α κ : Type} [DecidableEq κ] (key : α → κ) :
    ∀ l : List α, ∀ g ∈ pyGroupBy key l, g ≠ [] := by
  suffices h : ∀ (n : Nat) (l : List α), l.length = n →
      ∀ g ∈ pyGroupBy key l, g ≠ [] by
    exact fun l => h l.length l rfl
  intro n
  induction n using Nat.strong_induction_on with
  | _ n ih =>
    intro l hn
    cases l with
    | nil => simp [pyGroupBy]
    | cons x xs =>
      rw [pyGroupBy]
      intro g hg
      rcases List.mem_cons.mp hg with h1 | h1
      · rw [h1]; simp
      · have hlt : (spanKey key (key x) xs).2.length < n := by
          have := spanKey_snd_length_le key (key x) xs
          simp only [← hn, List.length_cons]
          omega
        exact ih _ hlt _ rfl g h1

theorem pyGroupBy_key_const {α κ : Type} [DecidableEq κ] (key : α → κ) :
    ∀ l : List α, ∀ g ∈ pyGroupBy key l, ∀ x ∈ g, ∀ y ∈ g, key x = key y := by
  suffices h : ∀ (n : Nat) (l : List α), l.length = n →
      ∀ g ∈ pyGroupBy key l, ∀ x ∈ g, ∀ y ∈ g, key x = key y by
    exact fun l => h l.length l rfl
  intro n
  induction n using Nat.strong_induction_on with
  | _ n ih =>
    intro l hn
    cases l with
    | nil => simp [pyGroupBy]
    | cons x xs =>
      rw [pyGroupBy]
      intro g hg a ha b hb
      rcases List.mem_cons.mp hg with h1 | h1
      · subst h1
        have hkey : ∀ z ∈ x :: (spanKey key (key x) xs).1, key z = key x := by
          intro z hz
          rcases List.mem_cons.mp hz with h2 | h2
          · rw [h2]
          · exact spanKey_fst_key key (key x) xs z h2
        rw [hkey a ha, hkey b hb]
      · have hlt : (spanKey key (key x) xs).2.length < n := by
          have := spanKey_snd_length_le key (key x) xs
          simp only [← hn, List.length_cons]
          omega
        exact ih _ hlt _ rfl g h1 a ha b hb

theorem spanKey_all {α κ : Type} [DecidableEq κ] (key : α → κ) (k : κ) :
    ∀ l : List α, (∀ x ∈ l, key x = k) → spanKey key k l = (l, []) := by
  intro l
  induction l with
  | nil => simp [spanKey]
  | cons y ys ih =>
    intro hk
    have hky : key y = k := hk y (by simp)
    simp only [spanKey, hky, if_pos rfl]
    rw [ih (fun z hz => hk z (by simp [hz]))]
    simp

/-- A non-empty run of constant key forms a single group. -/
theorem pyGroupBy_const {α κ : Type} [DecidableEq κ] (key : α → κ) (k : κ) :
    ∀ l : List α, l ≠ [] → (∀ x ∈ l, key x = k) → pyGroupBy key l = [l] := by
  intro l hne hk
  cases l with
  | nil => exact absurd rfl hne
  | cons x xs =>
    rw [pyGroupBy]
    have hspan : spanKey key (key x) xs = (xs, []) := by
      have hx : key x = k := hk x (by simp)
      rw [hx]
      exact spanKey_all key k xs (fun z hz => hk z (by simp [hz]))
    rw [hspan]
    simp [pyGroupBy]

/-- Longest iteration-interval tuple among the elements (used to size the
recursion fuel of the traversal engine). -/
def maxKeyLen {α : Type} (itkey : α → List IterationInterval) (es : List α) :
    Nat :=
  es.foldr (fun e m => max (itkey e).length m) 0

/-- One divide step of `Queue._process`: a group whose key is shorter than
`level` is a base case, any other group is handed to the next recursion
level with its key as the new prefix. -/
def qprocChunk {α : Type} (itkey : α → List IterationInterval)
    (recur : List α → Nat → List IterationInterval → Except String (List α))
    (level : Nat) (g : List α) : Except String (List α) :=
  match g with
  | [] => pure []
  | x :: _ =>
    if level > ((itkey x).take level).length then pure g
    else recur g (level + 1) ((itkey x).take level)

/-- `Queue._process` (lines 55-69): group the elements by the first `level`
entries of their iteration-interval tuple; a group whose key is shorter than
`level` is a base case passed through unchanged, any other group is recursed
into one level deeper; finally the callbacks run on the concatenated result
with the current prefix.  The fuel only bounds the recursion depth, which is
at most the longest tuple length plus one; `Queue.process` supplies enough. -/
def qprocF {α : Type} (itkey : α → List IterationInterval)
    (cb : List α → List IterationInterval → Except String (List α)) :
    Nat → List α → Nat → List IterationInterval → Except String (List α)
  | 0, _, _, _ => .error "Queue: fuel exhausted"
  | fuel + 1, es, level, pfx => do
    let parts ← (pyGroupBy (fun e => (itkey e).take level) es).mapM
      (qprocChunk itkey (qprocF itkey cb fuel) level)
    cb parts.flatten pfx

/-- `Queue.process` (lines 71-72). -/
def Queue.process {α : Type} (itkey : α → List IterationInterval)
    (cb : List α → List IterationInterval → Except String (List α))
    (es : List α) : Except String (List α) :=
  qprocF itkey cb (maxKeyLen itkey es + 2) es 1 []

/-- Edge condition of `build_dag` (lines 113-126): over the combined scope of
the two groups, an anti-dependence not local to either group, or a
flow-dependence not local to either group whose cause has a dimension
outside the prefix. -/
def dagCond (g0 g1 : ClusterGroup) (pfxDims : List Nat) : Bool :=
  let s := Scope.ofExprs (g0.exprs ++ g1.exprs)
  let localAnti := g0.scope.d_anti ++ g1.scope.d_anti
  let localFlow := g0.scope.d_flow ++ g1.scope.d_flow
  !(s.d_anti.filter (fun d => !(localAnti.contains d))).isEmpty ||
  ((s.d_flow.filter (fun d => !(localFlow.contains d))).any
    (fun d => d.cause.any (fun c => !(pfxDims.contains c))))

/-- Modelled from the spec: `devito.tools.DAG` (not under `src/`), as node
and edge lists. -/
structure DAG where
  nodes : List ClusterGroup
  edges : List (ClusterGroup × ClusterGroup)
deriving DecidableEq, Repr

/-- The edge list built by `build_dag`'s nested loops (lines 111-126): for
each group, one edge to the first later group meeting `dagCond` (the inner
`break` leaves the remaining pairs unexamined). -/
def dagEdges (pfxDims : List Nat) :
    List ClusterGroup → List (ClusterGroup × ClusterGroup)
  | [] => []
  | g :: rest =>
    (match rest.find? (fun g1 => dagCond g g1 pfxDims) with
     | some t => [(g, t)]
     | none => []) ++ dagEdges pfxDims rest

/-- `build_dag` (lines 75-128). -/
def build_dag (cgroups : List ClusterGroup) (pfx : List IterationInterval) :
    DAG :=
  ⟨cgroups, dagEdges (pfx.map (fun ii => ii.dim.id)) cgroups⟩

/-- Placeholder group for the total `getLastD`/`headD` views of the deque
ends (only read under a non-empty-queue guard). -/
def cgDefault : ClusterGroup := ⟨[], []⟩

/-- Does the group write any temporary-array symbol
(`any(f.is_Array for f in i.scope.writes)`)? -/
def hasArrayWrite (g : ClusterGroup) : Bool :=
  (writesOf g.exprs).any Sym.is_Array

/-- `choose_element` (lines 150-164).  The queue is a `collections.deque`
whose left end holds the oldest entry: with nothing scheduled yet the code
takes `queue.pop()`, the right end; otherwise it scans the queue left to
right for a node that writes no array and has the same iteration-interval
tuple as the last scheduled node, falling back to `queue.popleft()`.  The
result pairs the chosen node with the remaining queue. -/
def choose_element (queue : List ClusterGroup)
    (scheduled : List ClusterGroup) :
    Option (ClusterGroup × List ClusterGroup) :=
  if queue = [] then none
  else
    match scheduled.getLast? with
    | none => some (queue.getLastD cgDefault, queue.dropLast)
    | some last =>
      match queue.find? (fun i =>
          !(hasArrayWrite i) && i.itintervals == last.itintervals) with
      | some i => some (i, queue.erase i)
      | none => some (queue.headD cgDefault, queue.tail)

/-- Nodes of `pending` whose every incoming edge comes from a scheduled
node. -/
def readyOf (edges : List (ClusterGroup × ClusterGroup))
    (sched pending : List ClusterGroup) : List ClusterGroup :=
  pending.filter (fun n => edges.all (fun e => e.2 != n || sched.contains e.1))

/-- Modelled from the spec: the Kahn-style loop of
`DAG.topological_sort(choose_element)` (not under `src/`): repeatedly let the
selection rule pick from the ready set, erroring on a cycle. -/
def topoGo (edges : List (ClusterGroup × ClusterGroup)) :
    Nat → List ClusterGroup → List ClusterGroup →
    Except String (List ClusterGroup)
  | 0, pending, sched =>
    if pending.isEmpty then .ok sched else .error "DAG: cyclic graph"
  | fuel + 1, pending, sched =>
    if pending.isEmpty then .ok sched
    else
      match choose_element (readyOf edges sched pending) sched with
      | none => .error "DAG: cyclic graph"
      | some (v, _) => topoGo edges fuel (pending.erase v) (sched ++ [v])

/-- Modelled from the spec: `dag.topological_sort(choose_element)`. -/
def DAG.topological_sort (dag : DAG) : Except String (List ClusterGroup) :=
  topoGo dag.edges dag.nodes.length dag.nodes []

/-- `toposort` (lines 131-168): skip when no two groups share a tuple or all
groups share one tuple; otherwise sort the dependence DAG with
`choose_element`. -/
def toposort (cgroups : List ClusterGroup) (pfx : List IterationInterval) :
    Except String (List ClusterGroup) :=
  let keys := cgroups.map ClusterGroup.itintervals
  if !(keys.any (fun k => 1 < keys.count k)) then .ok cgroups
  else if keys.dedup.length = 1 then .ok cgroups
  else (build_dag cgroups pfx).topological_sort

/-- `aggregate` (lines 171-175): concatenate sibling groups into one group
at the current prefix. -/
def aggregate (cgroups : List ClusterGroup) (pfx : List IterationInterval) :
    List ClusterGroup :=
  [⟨(cgroups.map ClusterGroup.clusters).flatten, pfx⟩]

/-- Modelled from the spec: `ClusterGroup.concatenate(*cgroups)` flattens
the groups into one ordered cluster sequence. -/
def ClusterGroup.concatenate (cgroups : List ClusterGroup) : List Cluster :=
  (cgroups.map ClusterGroup.clusters).flatten

/-- The candidate test of `lift` (lines 259-262): some tensor expression, no
reduction, and no used dimension among the hoped-invariant dimensions. -/
def liftCandidate (hope : List Nat) (c : Cluster) : Bool :=
  (c.exprs.any LoweredEq.is_Tensor) &&
  !(c.exprs.any LoweredEq.is_Increment) &&
  !(hasCommon c.used_dimensions hope)

/-- Lines 274-276: contract the invariant dimensions out of both spaces
(`key = lambda d: d not in hope_invariant`); guards are kept. -/
def projectCluster (hope : List Nat) (c : Cluster) : Cluster :=
  ⟨c.exprs, c.ispace.project (fun d => !(hope.contains d)),
   c.dspace.project (fun d => !(hope.contains d)), c.guards⟩

/-- The data-dependence check of `lift` (lines 270-272): no other cluster
(the positional complement `set(clusters) - {c}`) writes a symbol the
candidate accesses. -/
def liftSafe (clusters : List Cluster) (p : Nat × Cluster) : Bool :=
  !((clusters.eraseIdx p.1).any (fun j =>
    hasCommonSym p.2.functions (writesOf j.exprs)))

/-- One step of `lift`'s main loop (lines 269-279). -/
def liftStep (clusters : List Cluster) (hope : List Nat)
    (acc : List Cluster × List Cluster) (p : Nat × Cluster) :
    List Cluster × List Cluster :=
  if liftCandidate hope p.2 && liftSafe clusters p then
    (acc.1 ++ [projectCluster hope p.2], acc.2)
  else (acc.1, acc.2 ++ [p.2])

/-- `lift` (lines 253-281). -/
def lift (clusters : List Cluster) (pfx : List IterationInterval) :
    List Cluster :=
  if pfx = [] then clusters
  else
    let hope := pfx.map (fun ii => ii.dim.id)
    if !(clusters.any (liftCandidate hope)) then clusters
    else
      let r := clusters.enum.foldl (liftStep clusters hope) ([], [])
      r.1 ++ r.2

/-- Modelled from the spec: `Cluster.from_clusters` (not under `src/`)
merges the equations in order into one cluster sharing the common iteration
and data space. -/
def Cluster.from_clusters (cs : List Cluster) : Cluster :=
  match cs with
  | [] => ⟨[], ⟨[], 0, []⟩, ⟨[]⟩, []⟩
  | c :: _ => ⟨(cs.map Cluster.exprs).flatten, c.ispace, c.dspace, []⟩

/-- `fuse` (lines 284-299). -/
def fuse (clusters : List Cluster) : List Cluster :=
  ((pyGroupBy Cluster.itintervals clusters).map (fun g =>
    if g.length == 1 || g.any (fun c => !c.guards.isEmpty) then g
    else [Cluster.from_clusters g])).flatten

/-- The condition registered for one conditional dimension (line 319): the
explicit predicate if given, else `CondEq(d.parent % d.factor, 0)`. -/
def condOf (d : CondDim) : Cond :=
  d.condition.getD (Cond.condEq d.parentId d.factor)

/-- Line 318: `guards.setdefault(d.parent, []).append(...)` on an insertion-
ordered dictionary. -/
def registerCond (acc : List (Nat × List Cond)) (d : CondDim) :
    List (Nat × List Cond) :=
  if (acc.lookup d.parentId).isSome then
    acc.map (fun p =>
      if p.1 = d.parentId then (p.1, p.2 ++ [condOf d]) else p)
  else acc ++ [(d.parentId, [condOf d])]

/-- `sympy.And(*v, evaluate=False)`: applied to a single argument it returns
that argument, otherwise the unevaluated conjunction. -/
def mkAnd : List Cond → GuardExpr
  | [c] => GuardExpr.single c
  | cs => GuardExpr.conj cs

/-- Line 316-320: the guard dictionary of one conditional equation. -/
def mkGuards (conds : List CondDim) : List (Nat × GuardExpr) :=
  (conds.foldl registerCond []).map (fun p => (p.1, mkAnd p.2))

/-- The per-cluster scan of `guard` (lines 307-326): accumulate
unconditional equations into `free`, flush them before each conditional
equation, which is emitted as its own guarded single-equation cluster. -/
def guardScan (isp : IterationSpace) (dsp : DataSpace) :
    List LoweredEq → List LoweredEq → List Cluster
  | free, [] => if free.isEmpty then [] else [⟨free, isp, dsp, []⟩]
  | free, e :: es =>
    if e.conditionals.isEmpty then guardScan isp dsp (free ++ [e]) es
    else
      (if free.isEmpty then [] else [⟨free, isp, dsp, []⟩]) ++
      ⟨[e], isp, dsp, mkGuards e.conditionals⟩ :: guardScan isp dsp [] es

/-- `guard` applied to one cluster. -/
def guardCluster (c : Cluster) : List Cluster :=
  guardScan c.ispace c.dspace [] c.exprs

/-- `guard` (lines 302-328). -/
def guard (clusters : List Cluster) : List Cluster :=
  (clusters.map guardCluster).flatten

/-- `optimize` (lines 231-250): lifting through the traversal engine, then
fusion. -/
def optimize (clusters : List Cluster) : Except String (List Cluster) := do
  let cl ← Queue.process Cluster.itintervals (fun es p => pure (lift es p))
    clusters
  pure (fuse cl)

/-- `clusterize` (lines 14-37): one cluster per equation, direction
enforcement, topological reordering with aggregation, optimization, and
guarding. -/
def clusterize (exprs : List LoweredEq) : Except String (List Cluster) := do
  let clusters := exprs.map (fun e => Cluster.mk [e] e.ispace e.dspace [])
  let clusters ← Queue.process Cluster.itintervals
    (fun es p => enforce es p) clusters
  let cgroups := clusters.map (fun c => ClusterGroup.mk [c] c.itintervals)
  let cgroups ← Queue.process ClusterGroup.itintervals
    (fun es p => do
      let ts ← toposort es p
      pure (aggregate ts p)) cgroups
  let clusters := ClusterGroup.concatenate cgroups
  let clusters ← optimize clusters
  pure (guard clusters)

theorem lookup_map_upd (upd : List (Nat × Direction)) (k : Nat) :
    ∀ old : List (Nat × Direction),
      (old.map (fun p => match upd.lookup p.1 with
        | some v => (p.1, v)
        | none => p)).lookup k =
      match old.lookup k with
      | some w => some (match upd.lookup k with
          | some v => v
          | none => w)
      | none => none := by
  intro old
  induction old with
  | nil => simp
  | cons a old ih =>
    obtain ⟨ak, av⟩ := a
    by_cases hk : k = ak
    · subst hk
      cases hu : upd.lookup k <;>
        simp [List.lookup_cons, hu]
    · have hbk : (k == ak) = false := beq_false_of_ne hk
      cases hu : upd.lookup ak <;>
        simp [List.lookup_cons, hu, hbk, ih]

theorem lookup_filter_isNone (old : List (Nat × Direction)) (k : Nat) :
    ∀ upd : List (Nat × Direction),
      (upd.filter (fun p => (old.lookup p.1).isNone)).lookup k =
      match old.lookup k with
      | some _ => none
      | none => upd.lookup k := by
  intro upd
  induction upd with
  | nil => cases old.lookup k <;> simp
  | cons b upd ih =>
    obtain ⟨bk, bv⟩ := b
    by_cases hk : k = bk
    · subst hk
      cases ho : old.lookup k <;>
        simp [List.filter_cons, ho, List.lookup_cons, ih]
    · have hbk : (k == bk) = false := beq_false_of_ne hk
      have hrhs : List.lookup k ((bk, bv) :: upd) = List.lookup k upd := by
        rw [List.lookup_cons]
        simp [hbk]
      simp only [List.filter_cons]
      cases ho : (old.lookup bk).isNone
      · simp only [ho, Bool.false_eq_true, if_false]
        rw [ih]
        cases ho2 : old.lookup k <;> simp [hrhs]
      · simp only [ho, if_true]
        rw [List.lookup_cons]
        simp only [hbk]
        rw [ih]
        cases ho2 : old.lookup k <;> simp [hrhs]

/-- Dictionary semantics of `updAssoc`: the update wins, otherwise the old
binding survives. -/
theorem lookup_updAssoc (old upd : List (Nat × Direction)) (k : Nat) :
    (updAssoc old upd).lookup k =
    match upd.lookup k with
    | some v => some v
    | none => old.lookup k := by
  simp only [updAssoc, List.lookup_append, lookup_map_upd, lookup_filter_isNone]
  cases ho : old.lookup k <;> cases hu : upd.lookup k <;> simp

theorem lookup_mkDirections (anti cand : List Nat) (k : Nat) :
    (mkDirections anti cand).lookup k =
    if k ∈ cand then
      some (if anti.contains k then Direction.Backward else Direction.Forward)
    else none := by
  induction cand with
  | nil => simp [mkDirections]
  | cons a cand ih =>
    by_cases hk : k = a
    · subst hk
      simp [mkDirections, List.lookup_cons]
    · have hbk : (k == a) = false := beq_false_of_ne hk
      simp only [mkDirections] at ih ⊢
      rw [List.map_cons, List.lookup_cons]
      simp only [hbk, ih]
      simp [hk]

theorem lookup_map_const_dir (kfb : List Nat) (x : Direction) (k : Nat) :
    ((kfb.map (fun d => (d, x))).lookup k) =
    if k ∈ kfb then some x else none := by
  induction kfb with
  | nil => simp
  | cons a kfb ih =>
    by_cases hk : k = a
    · subst hk
      simp [List.lookup_cons]
    · have hbk : (k == a) = false := beq_false_of_ne hk
      simp [List.lookup_cons, hbk, ih, hk]

theorem dirOf_applyDirections (dirs : List (Nat × Direction)) (c : Cluster)
    (k : Nat) :
    (applyDirections dirs c).ispace.dirOf k =
    match dirs.lookup k with
    | some v => v
    | none => c.ispace.dirOf k := by
  simp only [applyDirections, IterationSpace.dirOf, lookup_updAssoc]
  cases dirs.lookup k <;> simp [IterationSpace.dirOf]

theorem dirOf_widenCluster (kfb : List Nat) (c : Cluster) (k : Nat) :
    (widenCluster kfb c).ispace.dirOf k =
    if k ∈ kfb then Direction.Any else c.ispace.dirOf k := by
  simp only [widenCluster, IterationSpace.dirOf, lookup_updAssoc,
    lookup_map_const_dir]
  by_cases hk : k ∈ kfb <;> simp [hk, IterationSpace.dirOf]

theorem intervalsFst_widenCluster (kfb : List Nat) (c : Cluster) :
    (widenCluster kfb c).ispace.intervals.map Prod.fst =
    c.ispace.intervals.map Prod.fst := by
  simp only [widenCluster, List.map_map]
  apply List.map_congr_left
  intro p _
  by_cases h : p.1.id ∈ kfb <;> simp [h]

/-- Inversion of a successful `enforce` call with a non-empty prefix: the
flow-crash line was not reached, and the output is the direction-mapped kept
part, followed by the recursively enforced widened backlog when one exists. -/
theorem enforce_ok_inv (cs : List Cluster) (pfx : List IterationInterval)
    (out : List Cluster) (cand : List Nat) (rem bl : List Cluster)
    (kfb : List Nat) (hp : pfx ≠ [])
    (hcand : cand = (pfx.getLastD iiDefault).dim.defines)
    (hpeel : peelLoop cand cs [] [] = (rem, bl, kfb))
    (h : enforce cs pfx = .ok out) :
    hasCommon (Scope.ofExprs (clustersExprs rem)).flowCause cand = false ∧
    ((bl = [] ∧
      out = rem.map (applyDirections
        (mkDirections (Scope.ofExprs (clustersExprs rem)).antiCause cand))) ∨
     (bl ≠ [] ∧ ∃ r,
       enforce (bl.map (widenCluster kfb)) pfx = .ok r ∧
       out = rem.map (applyDirections
         (mkDirections (Scope.ofExprs (clustersExprs rem)).antiCause cand))
           ++ r)) := by
  subst hcand
  rw [enforce, dif_neg hp] at h
  simp only [hpeel] at h
  split at h
  · exact absurd h (by simp)
  · next hflow =>
    refine ⟨Bool.eq_false_iff.mpr hflow, ?_⟩
    split at h
    · next hbl =>
      simp only [Except.ok.injEq] at h
      exact Or.inl ⟨hbl, h.symm⟩
    · next hbl =>
      cases hrec : enforce (bl.map (widenCluster kfb)) pfx with
      | error e =>
        rw [hrec] at h
        exact absurd h (by simp)
      | ok r =>
        rw [hrec] at h
        simp only [Except.ok.injEq] at h
        exact Or.inr ⟨hbl, r, rfl, h.symm⟩

/-- What a successful enforcement does to one cluster: expressions and data
space intact, interval dimensions intact, every candidate dimension resolved
away from `Any`, every other dimension's direction untouched. -/
def EnfPair (cand : List Nat) (o c : Cluster) : Prop :=
  o.exprs = c.exprs ∧ o.dspace = c.dspace ∧
  o.ispace.intervals.map Prod.fst = c.ispace.intervals.map Prod.fst ∧
  ∀ k, (k ∈ cand → o.ispace.dirOf k ≠ Direction.Any) ∧
       (k ∉ cand → o.ispace.dirOf k = c.ispace.dirOf k)

theorem enfPair_applyDirections (anti cand : List Nat) (c : Cluster) :
    EnfPair cand (applyDirections (mkDirections anti cand) c) c := by
  refine ⟨rfl, rfl, rfl, fun k => ⟨?_, ?_⟩⟩
  · intro hk
    rw [dirOf_applyDirections, lookup_mkDirections]
    simp only [if_pos hk]
    split <;> simp
  · intro hk
    rw [dirOf_applyDirections, lookup_mkDirections]
    simp [hk]

theorem forall2_map_self {α : Type} {R : α → α → Prop} (f : α → α) :
    ∀ l : List α, (∀ x ∈ l, R (f x) x) → List.Forall₂ R (l.map f) l := by
  intro l h
  induction l with
  | nil => exact List.Forall₂.nil
  | cons a l ih =>
    exact List.Forall₂.cons (h a (by simp))
      (ih fun x hx => h x (by simp [hx]))

theorem enfPair_through_widen (cand kfb : List Nat)
    (hsub : ∀ k ∈ kfb, k ∈ cand) (o c : Cluster)
    (h : EnfPair cand o (widenCluster kfb c)) : EnfPair cand o c := by
  obtain ⟨h1, h2, h3, h4⟩ := h
  refine ⟨h1, h2, ?_, fun k => ⟨(h4 k).1, ?_⟩⟩
  · rw [h3, intervalsFst_widenCluster]
  · intro hk
    rw [(h4 k).2 hk, dirOf_widenCluster]
    have hnk : k ∉ kfb := fun hmem => hk (hsub k hmem)
    simp [hnk]

/-- The pairing specification of `enforce`: on success, the output clusters
correspond one-to-one and in order to the input clusters, candidate
directions resolved and everything else untouched. -/
theorem enforce_ok_spec :
    ∀ cs pfx out, enforce cs pfx = .ok out →
    (pfx = [] ∧ out = cs) ∨
    (pfx ≠ [] ∧
      List.Forall₂ (EnfPair ((pfx.getLastD iiDefault).dim.defines)) out cs) := by
  suffices hs : ∀ (n : Nat) cs (pfx : List IterationInterval) out,
      cs.length = n → enforce cs pfx = .ok out →
      (pfx = [] ∧ out = cs) ∨
      (pfx ≠ [] ∧
        List.Forall₂ (EnfPair ((pfx.getLastD iiDefault).dim.defines)) out cs) by
    exact fun cs pfx out h => hs cs.length cs pfx out rfl h
  intro n
  induction n using Nat.strong_induction_on with
  | _ n ih =>
    intro cs pfx out hn h
    by_cases hp : pfx = []
    · left
      refine ⟨hp, ?_⟩
      rw [enforce, dif_pos hp] at h
      simp only [Except.ok.injEq] at h
      exact h.symm
    · right
      refine ⟨hp, ?_⟩
      obtain ⟨rem, bl, kfb, hpeel⟩ :
          ∃ rem bl kfb,
            peelLoop ((pfx.getLastD iiDefault).dim.defines) cs [] [] =
              (rem, bl, kfb) := ⟨_, _, _, rfl⟩
      have hinv := enforce_ok_inv cs pfx out _ rem bl kfb hp rfl hpeel h
      have hps := peelLoop_spec ((pfx.getLastD iiDefault).dim.defines) cs [] []
      rw [hpeel] at hps
      simp only [List.append_nil] at hps
      have hjoin : rem ++ bl = cs := hps.1
      have hremnil : rem = [] → cs = [] := hps.2.1
      have hkfb : ∀ d ∈ kfb, d ∈ (pfx.getLastD iiDefault).dim.defines := by
        intro d hd
        rcases hps.2.2 d hd with h1 | h1
        · exact h1
        · exact absurd h1 (List.not_mem_nil d)
      rcases hinv.2 with ⟨hbl, hout⟩ | ⟨hbl, r, hrec, hout⟩
      · subst hbl
        have hcs : rem = cs := by simpa using hjoin
        rw [hout, ← hcs]
        exact forall2_map_self _ rem
          (fun x _ => enfPair_applyDirections _ _ x)
      · have hremne : rem ≠ [] := by
          intro hremeq
          have hcse := hremnil hremeq
          rw [hremeq, hcse] at hjoin
          exact hbl (by simpa using hjoin)
        have hlenbl : (bl.map (widenCluster kfb)).length < n := by
          have := congrArg List.length hjoin
          simp only [List.length_append] at this
          have h1 : 1 ≤ rem.length := by
            cases hr : rem with
            | nil => exact absurd hr hremne
            | cons a l => simp [hr]
          simp only [List.length_map]
          omega
        have hrecspec := ih _ hlenbl _ pfx r rfl hrec
        rcases hrecspec with ⟨hpe, _⟩ | ⟨_, hf2⟩
        · exact absurd hpe hp
        have hf2b :
            List.Forall₂ (EnfPair ((pfx.getLastD iiDefault).dim.defines))
              r bl := by
          rw [List.forall₂_map_right_iff] at hf2
          exact hf2.imp
            (fun o c hoc => enfPair_through_widen _ kfb hkfb o c hoc)
        rw [hout, ← hjoin]
        exact List.rel_append
          (forall2_map_self _ rem (fun x _ => enfPair_applyDirections _ _ x))
          hf2b

instance instDecEqExcept {e a : Type} [DecidableEq e] [DecidableEq a] :
    DecidableEq (Except e a) := fun x y =>
  match x, y with
  | .error u, .error v =>
    if h : u = v then isTrue (by rw [h]) else isFalse (by simp [h])
  | .ok u, .ok v =>
    if h : u = v then isTrue (by rw [h]) else isFalse (by simp [h])
  | .error _, .ok _ => isFalse (by simp)
  | .ok _, .error _ => isFalse (by simp)

unseal peelLoop enforce pyGroupBy

theorem forall2_map_eq {α β : Type} {R : α → α → Prop} (f : α → β)
    (hf : ∀ a b, R a b → f a = f b) :
    ∀ {l1 l2 : List α}, List.Forall₂ R l1 l2 → l1.map f = l2.map f := by
  intro l1 l2 h
  induction h with
  | nil => rfl
  | cons h1 _ ih => simp only [List.map_cons, hf _ _ h1, ih]

/-- Concrete material for witnesses and counterexamples. -/
def dT : Dim := ⟨0, []⟩

def dX : Dim := ⟨1, []⟩

def iv0 : Interval := .base 0

def iiT : IterationInterval := ⟨dT, .Forward, iv0⟩

def iiX : IterationInterval := ⟨dX, .Any, iv0⟩

def sU : Sym := ⟨0, false⟩

def sA : Sym := ⟨1, false⟩

def sV : Sym := ⟨2, false⟩

def ispT : IterationSpace := ⟨[(dT, iv0)], 0, [(0, .Any)]⟩

def ispX : IterationSpace := ⟨[(dX, iv0)], 0, [(1, .Any)]⟩

def ds0 : DataSpace := ⟨[]⟩

/-- Writes `u[t]`. -/
def eFw : LoweredEq := ⟨1, [], [⟨sU, [(0, 0)]⟩], true, false, [], ispT, ds0⟩

/-- Reads `u[t-1]`. -/
def eFr : LoweredEq := ⟨2, [⟨sU, [(0, -1)]⟩], [], true, false, [], ispT, ds0⟩

/-- A cluster whose scope carries a flow dependence along `t`. -/
def cFlow : Cluster := ⟨[eFw, eFr], ispT, ds0, []⟩

/-- Reads `a[x+1]`. -/
def eR1 : LoweredEq := ⟨3, [⟨sA, [(1, 1)]⟩], [], true, false, [], ispX, ds0⟩

/-- Writes `a[x]`. -/
def eW2 : LoweredEq := ⟨4, [], [⟨sA, [(1, 0)]⟩], true, false, [], ispX, ds0⟩

/-- Reads `a[x+1]`. -/
def eR3 : LoweredEq := ⟨5, [⟨sA, [(1, 1)]⟩], [], true, false, [], ispX, ds0⟩

def cA : Cluster := ⟨[eR1], ispX, ds0, []⟩

def cB : Cluster := ⟨[eW2], ispX, ds0, []⟩

def cC : Cluster := ⟨[eR3], ispX, ds0, []⟩

/-- C1.  The claim says the fall-through of `enforce` assigns `Forward` to
every dimension of `flowCauses ∩ candidates`.  The code instead reaches the
set-comprehension typo `directions.update({d.Forward for d in
scope.d_flow.cause & candidates})` and raises `AttributeError` whenever that
intersection is non-empty: a single cluster with a flow dependence carried on
the candidate dimension `t` makes `enforce` fail instead of producing the
claimed direction map. -/
theorem claim_C1 :
    enforce [cFlow] [iiT] = .error "AttributeError: d.Forward" := by decide

/-- C10.  On success, `enforce` is a frame transformation: position by
position (the kept prefix in original order followed by the processed
backlog in original order — together the original order), every output
cluster carries exactly the expression list and data space of its input
counterpart, so no cluster is dropped, duplicated or rewritten outside its
iteration space. -/
theorem claim_C10 (cs : List Cluster) (pfx : List IterationInterval)
    (out : List Cluster) (h : enforce cs pfx = .ok out) :
    out.map (fun c => (c.exprs, c.dspace)) =
      cs.map (fun c => (c.exprs, c.dspace)) := by
  rcases enforce_ok_spec cs pfx out h with ⟨_, hout⟩ | ⟨_, hf⟩
  · rw [hout]
  · exact forall2_map_eq _ (fun a b hab => by
      simp only [hab.1, hab.2.1]) hf

theorem claim_C10_witness :
    enforce [cA, cB, cC] [iiX] =
      .ok ((enforce [cA, cB, cC] [iiX]).toOption.getD []) ∧
    ((enforce [cA, cB, cC] [iiX]).toOption.getD []).map
        (fun c => (c.exprs, c.dspace)) =
      [cA, cB, cC].map (fun c => (c.exprs, c.dspace)) :=
  ⟨by decide, claim_C10 [cA, cB, cC] [iiX] _ (by decide)⟩

/-- C3.  For a group whose combined scope has a dimension in both
`flowCauses` and `antiCauses` among the candidates, the peeling loop of
`enforce` terminates (it is a total function), performs at most `N` peels
(`N - rem.length`, and at least one cluster is always kept), and splits the
group into the kept prefix and the backlog in original order; a successful
`enforce` then returns the direction-resolved prefix followed by the
recursively processed backlog. -/
theorem claim_C3 (cs : List Cluster) (pfx : List IterationInterval)
    (hp : pfx ≠ [])
    (hconf : requireFB cs ((pfx.getLastD iiDefault).dim.defines) ≠ []) :
    ∃ rem bl kfb,
      peelLoop ((pfx.getLastD iiDefault).dim.defines) cs [] [] =
        (rem, bl, kfb) ∧
      rem ++ bl = cs ∧
      cs.length - rem.length ≤ cs.length ∧
      (cs ≠ [] → 1 ≤ rem.length) ∧
      (∀ out, enforce cs pfx = .ok out →
        ∃ r, out = rem.map (applyDirections (mkDirections
            (Scope.ofExprs (clustersExprs rem)).antiCause
            ((pfx.getLastD iiDefault).dim.defines))) ++ r ∧
          ((bl = [] ∧ r = []) ∨
            enforce (bl.map (widenCluster kfb)) pfx = .ok r)) := by
  refine ⟨(peelLoop _ cs [] []).1, (peelLoop _ cs [] []).2.1,
    (peelLoop _ cs [] []).2.2, rfl, ?_, ?_, ?_, ?_⟩
  · have := (peelLoop_spec ((pfx.getLastD iiDefault).dim.defines) cs [] []).1
    simpa using this
  · omega
  · intro hcs
    have hs := peelLoop_spec ((pfx.getLastD iiDefault).dim.defines) cs [] []
    cases hr : (peelLoop ((pfx.getLastD iiDefault).dim.defines) cs [] []).1 with
    | nil => exact absurd (hs.2.1 hr) hcs
    | cons a l => simp [hr]
  · intro out hout
    have hinv := enforce_ok_inv cs pfx out _ _ _ _ hp rfl rfl hout
    rcases hinv.2 with ⟨hbl, ho⟩ | ⟨_, r, hrec, ho⟩
    · exact ⟨[], by simpa using ho, Or.inl ⟨hbl, rfl⟩⟩
    · exact ⟨r, ho, Or.inr hrec⟩

theorem claim_C3_witness :
    (([iiX] : List IterationInterval) ≠ [] ∧
      requireFB [cA, cB, cC]
        (([iiX] : List IterationInterval).getLastD iiDefault).dim.defines ≠
          []) ∧
    (∃ rem bl kfb,
      peelLoop ((([iiX] : List IterationInterval).getLastD
          iiDefault).dim.defines) [cA, cB, cC] [] [] = (rem, bl, kfb) ∧
      rem ++ bl = [cA, cB, cC] ∧
      ([cA, cB, cC] : List Cluster).length - rem.length ≤
        ([cA, cB, cC] : List Cluster).length ∧
      (([cA, cB, cC] : List Cluster) ≠ [] → 1 ≤ rem.length) ∧
      (∀ out, enforce [cA, cB, cC] [iiX] = .ok out →
        ∃ r, out = rem.map (applyDirections (mkDirections
            (Scope.ofExprs (clustersExprs rem)).antiCause
            ((([iiX] : List IterationInterval).getLastD
              iiDefault).dim.defines))) ++ r ∧
          ((bl = [] ∧ r = []) ∨
            enforce (bl.map (widenCluster kfb)) [iiX] = .ok r))) :=
  ⟨⟨by decide, by decide⟩, claim_C3 [cA, cB, cC] [iiX] (by decide) (by decide)⟩

/-- No `Any` direction anywhere in the cluster's iteration intervals. -/
def NoAnyC (c : Cluster) : Prop :=
  ∀ ii ∈ c.itintervals, ii.dir ≠ Direction.Any

/-- Directions resolved from interval position `k` on. -/
def resolvedFrom (c : Cluster) (k : Nat) : Prop :=
  ∀ q ∈ c.ispace.intervals.drop k, c.ispace.dirOf q.1.id ≠ Direction.Any

theorem noAnyC_of_resolvedFrom (c : Cluster) (h : resolvedFrom c 0) :
    NoAnyC c := by
  intro ii hii
  simp only [Cluster.itintervals, IterationSpace.itintervals,
    List.mem_map] at hii
  obtain ⟨q, hq, rfl⟩ := hii
  exact h q (by simpa using hq)

theorem dims_itintervals (c : Cluster) :
    c.itintervals.map IterationInterval.dim =
      c.ispace.intervals.map Prod.fst := by
  simp [Cluster.itintervals, IterationSpace.itintervals, List.map_map]

theorem forall2_mem_left {α β : Type} {R : α → β → Prop} :
    ∀ {l1 : List α} {l2 : List β}, List.Forall₂ R l1 l2 →
      ∀ a ∈ l1, ∃ b ∈ l2, R a b := by
  intro l1 l2 h
  induction h with
  | nil => simp
  | cons h1 _ ih =>
    intro a ha
    rcases List.mem_cons.mp ha with rfl | ha
    · exact ⟨_, by simp, h1⟩
    · obtain ⟨b, hb, hab⟩ := ih a ha
      exact ⟨b, by simp [hb], hab⟩

theorem getLastD_eq_get {α : Type} (l : List α) (d : α) (h : l ≠ []) :
    l.getLastD d = l.get ⟨l.length - 1, by
      cases l with
      | nil => exact absurd rfl h
      | cons a t => simp⟩ := by
  rw [List.getLastD_eq_getLast?, List.getLast?_eq_getElem?]
  rw [List.getElem?_eq_getElem]
  rfl

/-- Effect of one successful `enforce` callback on the traversal invariant:
dimension names of the shared prefix are preserved, and resolution advances
from position `|pfx|` to position `|pfx| - 1` (the innermost prefix
dimension is a candidate, hence resolved). -/
theorem enforce_resolves (es out : List Cluster)
    (pfx : List IterationInterval) (hp : pfx ≠ [])
    (h : enforce es pfx = .ok out)
    (hA : ∀ x ∈ es, (x.ispace.intervals.map Prod.fst).take pfx.length =
      pfx.map IterationInterval.dim)
    (hB : ∀ x ∈ es, resolvedFrom x pfx.length) :
    ∀ o ∈ out,
      ((o.ispace.intervals.map Prod.fst).take pfx.length =
        pfx.map IterationInterval.dim) ∧
      resolvedFrom o (pfx.length - 1) := by
  rcases enforce_ok_spec es pfx out h with ⟨hpe, _⟩ | ⟨_, hf⟩
  · exact absurd hpe hp
  intro o ho
  obtain ⟨x, hx, hpair⟩ := forall2_mem_left hf o ho
  obtain ⟨_, _, hfst, hdir⟩ := hpair
  have hAx := hA x hx
  have hBx := hB x hx
  have hAo : (o.ispace.intervals.map Prod.fst).take pfx.length =
      pfx.map IterationInterval.dim := by rw [hfst]; exact hAx
  refine ⟨hAo, ?_⟩
  intro q hq
  have hplen : 1 ≤ pfx.length := by
    cases hcp : pfx with
    | nil => exact absurd hcp hp
    | cons a t => simp [hcp]
  by_cases hcand : q.1.id ∈ (pfx.getLastD iiDefault).dim.defines
  · exact (hdir q.1.id).1 hcand
  -- q cannot sit at position |pfx| - 1, whose dimension is the last prefix
  -- dimension and therefore a candidate
  have hqlen : pfx.length - 1 < o.ispace.intervals.length := by
    by_contra hge
    rw [List.drop_eq_nil_iff.mpr (by omega)] at hq
    exact absurd hq (List.not_mem_nil q)
  rw [List.drop_eq_getElem_cons hqlen] at hq
  have hsucc : pfx.length - 1 + 1 = pfx.length := by omega
  rcases List.mem_cons.mp hq with hq1 | hq2
  · -- position |pfx| - 1: its dimension is pfx.getLastD, a candidate
    exfalso
    apply hcand
    have h1 : ((o.ispace.intervals.map Prod.fst).take
        pfx.length)[pfx.length - 1]? = some q.1 := by
      rw [List.getElem?_take_of_lt (by omega), List.getElem?_map,
        List.getElem?_eq_getElem hqlen]
      simp [hq1]
    rw [hAo] at h1
    have h2 : (pfx.map IterationInterval.dim)[pfx.length - 1]? =
        some (pfx.getLastD iiDefault).dim := by
      rw [List.getElem?_map,
        show pfx[pfx.length - 1]? = pfx.getLast? from
          (List.getLast?_eq_getElem? pfx).symm]
      cases hl : pfx.getLast? with
      | none => exact absurd (List.getLast?_eq_none_iff.mp hl) hp
      | some a => simp [List.getLastD_eq_getLast?, hl]
    rw [h1] at h2
    have hgl : q.1 = (pfx.getLastD iiDefault).dim := by
      simpa using h2
    rw [hgl]
    simp [Dim.defines]
  · -- position ≥ |pfx|: direction inherited from the input, already resolved
    rw [(hdir q.1.id).2 hcand]
    rw [hsucc] at hq2
    have hmem : q.1 ∈ (x.ispace.intervals.drop pfx.length).map Prod.fst := by
      rw [List.map_drop, ← hfst, ← List.map_drop]
      exact List.mem_map_of_mem Prod.fst hq2
    obtain ⟨q2, hq2mem, hq2eq⟩ := List.mem_map.mp hmem
    have hres := hBx q2 hq2mem
    rw [hq2eq] at hres
    exact hres

theorem mapM_flatten_prop {α : Type} {step : List α → Except String (List α)}
    (P : α → Prop) :
    ∀ (chunks parts : List (List α)),
      (∀ g ∈ chunks, ∀ r, step g = .ok r → ∀ c ∈ r, P c) →
      chunks.mapM step = .ok parts → ∀ c ∈ parts.flatten, P c := by
  intro chunks
  induction chunks with
  | nil =>
    intro parts _ hm
    have hm2 : (Except.ok ([] : List (List α)) :
        Except String (List (List α))) = .ok parts := hm
    cases hm2
    simp
  | cons g chunks ih =>
    intro parts hstep hm
    rw [List.mapM_cons] at hm
    cases hg : step g with
    | error e =>
      rw [hg] at hm
      exact absurd hm (by simp [Bind.bind, Except.bind])
    | ok r =>
      rw [hg] at hm
      cases hrest : chunks.mapM step with
      | error e =>
        rw [hrest] at hm
        exact absurd hm (by simp [Bind.bind, Except.bind])
      | ok rs =>
        rw [hrest] at hm
        have hm2 : (Except.ok (r :: rs) :
            Except String (List (List α))) = .ok parts := hm
        cases hm2
        intro c hc
        simp only [List.flatten_cons, List.mem_append] at hc
        rcases hc with hc | hc
        · exact hstep g (by simp) r hg c hc
        · exact ih rs (fun g2 hg2 => hstep g2 (by simp [hg2])) hrest c hc

/-- Invariant of the direction-enforcement traversal: processing a group of
elements sharing the first `level - 1` iteration intervals as `pfx` yields
clusters whose prefix dimensions are unchanged and whose directions are
resolved from position `level - 2` on. -/
theorem qprocF_enforce_spec :
    ∀ (fuel : Nat) (es : List Cluster) (level : Nat)
      (pfx : List IterationInterval) (out : List Cluster),
      1 ≤ level → pfx.length = level - 1 →
      (∀ e ∈ es, (Cluster.itintervals e).take (level - 1) = pfx) →
      qprocF Cluster.itintervals (fun es2 p => enforce es2 p) fuel es level
        pfx = .ok out →
      ∀ c ∈ out,
        ((c.ispace.intervals.map Prod.fst).take (level - 1) =
          pfx.map IterationInterval.dim) ∧
        resolvedFrom c (level - 1 - 1) := by
  intro fuel
  induction fuel with
  | zero =>
    intro es level pfx out _ _ _ h
    exact absurd h (by simp [qprocF])
  | succ fuel ih =>
    intro es level pfx out hlev hplen hpre h
    rw [qprocF] at h
    cases hm : (pyGroupBy (fun e => (Cluster.itintervals e).take level)
        es).mapM (qprocChunk Cluster.itintervals
          (qprocF Cluster.itintervals (fun es2 p => enforce es2 p) fuel)
          level) with
    | error e =>
      rw [hm] at h
      exact absurd h (by simp [Bind.bind, Except.bind])
    | ok parts =>
      rw [hm] at h
      have h2 : enforce parts.flatten pfx = .ok out := h
      have hP : ∀ c ∈ parts.flatten,
          ((c.ispace.intervals.map Prod.fst).take (level - 1) =
            pfx.map IterationInterval.dim) ∧
          resolvedFrom c (level - 1) := by
        refine mapM_flatten_prop _ _ parts ?_ hm
        intro g hg r hr c hc
        have hgne := pyGroupBy_ne_nil _ es g hg
        cases hgx : g with
        | nil => exact absurd hgx hgne
        | cons x t =>
          rw [hgx] at hr
          rw [qprocChunk] at hr
          have hxg : x ∈ g := by rw [hgx]; exact List.mem_cons_self x t
          have hxes : x ∈ es := pyGroupBy_sub _ es g hg x hxg
          have hkeyc : ∀ y ∈ g, (Cluster.itintervals y).take level =
              (Cluster.itintervals x).take level :=
            fun y hy => pyGroupBy_key_const _ es g hg y hy x hxg
          by_cases hbase :
              level > ((Cluster.itintervals x).take level).length
          · -- base chunk: passed through unchanged
            rw [if_pos hbase] at hr
            have hrr : (Except.ok (x :: t) :
                Except String (List Cluster)) = .ok r := hr
            cases hrr
            rw [← hgx] at hc
            have hces : c ∈ es := pyGroupBy_sub _ es g hg c hc
            have hclen : (Cluster.itintervals c).length < level := by
              have hk := hkeyc c hc
              have hlx : ((Cluster.itintervals x).take level).length <
                  level := hbase
              have := congrArg List.length hk
              simp only [List.length_take] at this hlx
              omega
            constructor
            · have hp := hpre c hces
              have := congrArg (List.map IterationInterval.dim) hp
              rw [List.map_take, dims_itintervals] at this
              exact this
            · intro q hq
              exfalso
              have hlen2 : c.ispace.intervals.length < level := by
                have : (Cluster.itintervals c).length =
                    c.ispace.intervals.length := by
                  simp [Cluster.itintervals, IterationSpace.itintervals]
                omega
              rw [List.drop_eq_nil_iff.mpr (by omega)] at hq
              exact absurd hq (List.not_mem_nil q)
          · -- recursive chunk
            rw [if_neg hbase] at hr
            have hklen : ((Cluster.itintervals x).take level).length =
                level := by
              simp only [List.length_take] at hbase ⊢
              omega
            have hrec := ih g (level + 1)
              ((Cluster.itintervals x).take level) r (by omega)
              (by simpa using hklen)
              (by
                intro e he
                simpa using hkeyc e he)
              (by rw [hgx]; exact hr)
            have hres := hrec c hc
            simp only [Nat.add_sub_cancel] at hres
            constructor
            · -- shorten the preserved prefix from `level` to `level - 1`
              have hA := hres.1
              have hx := hpre x hxes
              have e1 : (c.ispace.intervals.map Prod.fst).take (level - 1) =
                  ((c.ispace.intervals.map Prod.fst).take level).take
                    (level - 1) := by
                rw [List.take_take]
                congr 1
                omega
              rw [e1, hA, ← List.map_take, List.take_take]
              have e2 : min (level - 1) level = level - 1 := by omega
              rw [e2, ← hx]
            · exact hres.2
      by_cases hp0 : pfx = []
      · subst hp0
        have hl1 : level = 1 := by
          simp only [List.length_nil] at hplen
          omega
        rw [enforce, dif_pos rfl] at h2
        have h3 : parts.flatten = out := by
          simpa using h2
        intro c hc
        rw [← h3] at hc
        have hthis := hP c hc
        subst hl1
        exact ⟨hthis.1, hthis.2⟩
      · have hlen1 : pfx.length = level - 1 := hplen
        have := enforce_resolves parts.flatten out pfx hp0 h2
          (by
            intro x hx
            rw [hlen1]
            exact (hP x hx).1)
          (by
            intro x hx
            have := (hP x hx).2
            rw [hlen1]
            exact this)
        intro c hc
        have hcc := this c hc
        rw [hlen1] at hcc
        exact hcc

/-- Generic preservation through the traversal engine: if the callback
preserves a pointwise property, so does the whole divide-and-conquer
processing. -/
theorem qprocF_preserve {α : Type} (itkey : α → List IterationInterval)
    (cb : List α → List IterationInterval → Except String (List α))
    (P : α → Prop)
    (hcb : ∀ es p out, (∀ x ∈ es, P x) → cb es p = .ok out →
      ∀ x ∈ out, P x) :
    ∀ (fuel : Nat) (es : List α) (level : Nat)
      (pfx : List IterationInterval) (out : List α),
      qprocF itkey cb fuel es level pfx = .ok out →
      (∀ x ∈ es, P x) → ∀ x ∈ out, P x := by
  intro fuel
  induction fuel with
  | zero =>
    intro es level pfx out h
    exact absurd h (by simp [qprocF])
  | succ fuel ih =>
    intro es level pfx out h hin
    rw [qprocF] at h
    cases hm : (pyGroupBy (fun e => (itkey e).take level) es).mapM
        (qprocChunk itkey (qprocF itkey cb fuel) level) with
    | error e =>
      rw [hm] at h
      exact absurd h (by simp [Bind.bind, Except.bind])
    | ok parts =>
      rw [hm] at h
      have h2 : cb parts.flatten pfx = .ok out := h
      refine hcb parts.flatten pfx out ?_ h2
      refine mapM_flatten_prop _ _ parts ?_ hm
      intro g hg r hr c hc
      have hsub := pyGroupBy_sub _ es g hg
      cases hgx : g with
      | nil =>
        rw [hgx, qprocChunk] at hr
        have hrr : (Except.ok ([] : List α) : Except String (List α)) =
          .ok r := hr
        cases hrr
        exact absurd hc (List.not_mem_nil c)
      | cons x t =>
        rw [hgx, qprocChunk] at hr
        by_cases hbase : level > ((itkey x).take level).length
        · rw [if_pos hbase] at hr
          have hrr : (Except.ok (x :: t) : Except String (List α)) =
            .ok r := hr
          cases hrr
          exact hin c (hsub c (by rw [hgx]; exact hc))
        · rw [if_neg hbase] at hr
          exact ih (x :: t) (level + 1) ((itkey x).take level) r hr
            (fun y hy => hin y (hsub y (by rw [hgx]; exact hy))) c hc

theorem choose_element_mem (q s : List ClusterGroup) (v : ClusterGroup)
    (q2 : List ClusterGroup) (h : choose_element q s = some (v, q2)) :
    v ∈ q := by
  rw [choose_element] at h
  split at h
  · exact absurd h (by simp)
  · next hq =>
    split at h
    · simp only [Option.some.injEq, Prod.mk.injEq] at h
      rw [← h.1]
      cases q with
      | nil => exact absurd rfl hq
      | cons a t =>
        rw [getLastD_eq_get (a :: t) cgDefault (by simp)]
        exact List.get_mem _ _ _
    · split at h
      · next i hf =>
        simp only [Option.some.injEq, Prod.mk.injEq] at h
        rw [← h.1]
        exact List.mem_of_find?_eq_some hf
      · next hf =>
        simp only [Option.some.injEq, Prod.mk.injEq] at h
        rw [← h.1]
        cases q with
        | nil => exact absurd rfl hq
        | cons a t => simp [List.headD]

theorem topoGo_mem (edges : List (ClusterGroup × ClusterGroup)) :
    ∀ (fuel : Nat) (pending sched out : List ClusterGroup),
      topoGo edges fuel pending sched = .ok out →
      ∀ x ∈ out, x ∈ sched ∨ x ∈ pending := by
  intro fuel
  induction fuel with
  | zero =>
    intro pending sched out h
    rw [topoGo] at h
    split at h
    · have h2 : (Except.ok sched : Except String (List ClusterGroup)) =
        .ok out := h
      cases h2
      exact fun x hx => Or.inl hx
    · exact absurd h (by simp)
  | succ fuel ih =>
    intro pending sched out h
    rw [topoGo] at h
    split at h
    · have h2 : (Except.ok sched : Except String (List ClusterGroup)) =
        .ok out := h
      cases h2
      exact fun x hx => Or.inl hx
    · cases hch : choose_element (readyOf edges sched pending) sched with
      | none =>
        rw [hch] at h
        exact absurd h (by simp)
      | some vp =>
        rw [hch] at h
        obtain ⟨v, q2⟩ := vp
        have hrec := ih (pending.erase v) (sched ++ [v]) out h
        intro x hx
        rcases hrec x hx with hx1 | hx2
        · rcases List.mem_append.mp hx1 with hs | hv
          · exact Or.inl hs
          · right
            have hv2 : x = v := by simpa using hv
            rw [hv2]
            have := choose_element_mem _ _ _ _ hch
            exact List.mem_of_mem_filter this
        · exact Or.inr (List.mem_of_mem_erase hx2)

/-- `toposort` only reorders: every output group is an input group. -/
theorem toposort_sub (cgroups : List ClusterGroup)
    (pfx : List IterationInterval) (out : List ClusterGroup)
    (h : toposort cgroups pfx = .ok out) : ∀ g ∈ out, g ∈ cgroups := by
  rw [toposort] at h
  split at h
  · have h2 : (Except.ok cgroups : Except String (List ClusterGroup)) =
      .ok out := h
    cases h2
    exact fun g hg => hg
  · split at h
    · have h2 : (Except.ok cgroups : Except String (List ClusterGroup)) =
        .ok out := h
      cases h2
      exact fun g hg => hg
    · rw [DAG.topological_sort] at h
      intro g hg
      rcases topoGo_mem _ _ _ _ _ h g hg with h1 | h1
      · exact absurd h1 (List.not_mem_nil g)
      · exact h1

/-- Where the two accumulators of `lift`'s main loop can come from. -/
theorem liftFold_mem (clusters : List Cluster) (hope : List Nat) :
    ∀ (l : List (Nat × Cluster)) (acc : List Cluster × List Cluster)
      (x : Cluster),
      (x ∈ (l.foldl (liftStep clusters hope) acc).1 →
        x ∈ acc.1 ∨ ∃ p ∈ l,
          (liftCandidate hope p.2 && liftSafe clusters p) = true ∧
          x = projectCluster hope p.2) ∧
      (x ∈ (l.foldl (liftStep clusters hope) acc).2 →
        x ∈ acc.2 ∨ ∃ p ∈ l, x = p.2) := by
  intro l
  induction l with
  | nil => intro acc x; exact ⟨fun h => Or.inl h, fun h => Or.inl h⟩
  | cons p l ih =>
    intro acc x
    simp only [List.foldl_cons]
    constructor
    · intro hx
      rcases (ih (liftStep clusters hope acc p) x).1 hx with h1 | h1
      · rw [liftStep] at h1
        split at h1
        · next hcond =>
          rcases List.mem_append.mp h1 with h2 | h2
          · exact Or.inl h2
          · right
            refine ⟨p, by simp, hcond, ?_⟩
            simpa using h2
        · exact Or.inl h1
      · obtain ⟨p2, hp2, hc2, hx2⟩ := h1
        exact Or.inr ⟨p2, by simp [hp2], hc2, hx2⟩
    · intro hx
      rcases (ih (liftStep clusters hope acc p) x).2 hx with h1 | h1
      · rw [liftStep] at h1
        split at h1
        · exact Or.inl h1
        · rcases List.mem_append.mp h1 with h2 | h2
          · exact Or.inl h2
          · exact Or.inr ⟨p, by simp, by simpa using h2⟩
      · obtain ⟨p2, hp2, hx2⟩ := h1
        exact Or.inr ⟨p2, by simp [hp2], hx2⟩

/-- Everything `lift` emits is an input cluster or a projected input
cluster. -/
theorem lift_mem (cs : List Cluster) (pfx : List IterationInterval) :
    ∀ x ∈ lift cs pfx, x ∈ cs ∨
      ∃ c ∈ cs, x = projectCluster (pfx.map (fun ii => ii.dim.id)) c := by
  intro x hx
  simp only [lift] at hx
  split at hx
  · exact Or.inl hx
  · split at hx
    · exact Or.inl hx
    · rcases List.mem_append.mp hx with h1 | h1
      · rcases (liftFold_mem cs _ cs.enum ([], []) x).1 h1 with h2 | h2
        · exact absurd h2 (List.not_mem_nil x)
        · obtain ⟨p, hp, _, hx2⟩ := h2
          right
          refine ⟨p.2, ?_, hx2⟩
          have := List.mem_enum hp
          rw [this.2]
          exact List.getElem_mem this.1
      · rcases (liftFold_mem cs _ cs.enum ([], []) x).2 h1 with h2 | h2
        · exact absurd h2 (List.not_mem_nil x)
        · obtain ⟨p, hp, hx2⟩ := h2
          left
          have := List.mem_enum hp
          rw [hx2, this.2]
          exact List.getElem_mem this.1

theorem noAnyC_projectCluster (hope : List Nat) (c : Cluster)
    (h : NoAnyC c) : NoAnyC (projectCluster hope c) := by
  intro ii hii
  apply h
  simp only [projectCluster, Cluster.itintervals, IterationSpace.itintervals,
    IterationSpace.project, List.mem_map] at hii ⊢
  obtain ⟨q, hq, rfl⟩ := hii
  exact ⟨q, List.mem_of_mem_filter hq, rfl⟩

theorem noAnyC_from_clusters (g : List Cluster)
    (h : ∀ c ∈ g, NoAnyC c) (hg : g ≠ []) :
    NoAnyC (Cluster.from_clusters g) := by
  cases g with
  | nil => exact absurd rfl hg
  | cons c t =>
    intro ii hii
    apply h c (by simp)
    simpa [Cluster.from_clusters, Cluster.itintervals] using hii

/-- `fuse` preserves the absence of `Any` directions. -/
theorem fuse_noAny (cs : List Cluster) (h : ∀ c ∈ cs, NoAnyC c) :
    ∀ c ∈ fuse cs, NoAnyC c := by
  intro c hc
  rw [fuse] at hc
  rw [List.mem_flatten] at hc
  obtain ⟨l, hl, hcl⟩ := hc
  rw [List.mem_map] at hl
  obtain ⟨g, hg, rfl⟩ := hl
  have hsub := pyGroupBy_sub Cluster.itintervals cs g hg
  have hgne := pyGroupBy_ne_nil Cluster.itintervals cs g hg
  split at hcl
  · exact h c (hsub c hcl)
  · have hc2 : c = Cluster.from_clusters g := by simpa using hcl
    rw [hc2]
    exact noAnyC_from_clusters g (fun x hx => h x (hsub x hx)) hgne

/-- Every cluster `guard` emits reuses the iteration space of its source
cluster. -/
theorem guardScan_ispace (isp : IterationSpace) (dsp : DataSpace) :
    ∀ (es free : List LoweredEq) (c : Cluster),
      c ∈ guardScan isp dsp free es → c.ispace = isp := by
  intro es
  induction es with
  | nil =>
    intro free c hc
    rw [guardScan] at hc
    split at hc
    · exact absurd hc (List.not_mem_nil c)
    · have : c = ⟨free, isp, dsp, []⟩ := by simpa using hc
      rw [this]
  | cons e es ih =>
    intro free c hc
    rw [guardScan] at hc
    split at hc
    · exact ih (free ++ [e]) c hc
    · rcases List.mem_append.mp hc with h1 | h1
      · split at h1
        · exact absurd h1 (List.not_mem_nil c)
        · have : c = ⟨free, isp, dsp, []⟩ := by simpa using h1
          rw [this]
      · rcases List.mem_cons.mp h1 with h2 | h2
        · rw [h2]
        · exact ih [] c h2

/-- `guard` preserves the absence of `Any` directions. -/
theorem guard_noAny (cs : List Cluster) (h : ∀ c ∈ cs, NoAnyC c) :
    ∀ c ∈ guard cs, NoAnyC c := by
  intro c hc
  rw [guard, List.mem_flatten] at hc
  obtain ⟨l, hl, hcl⟩ := hc
  rw [List.mem_map] at hl
  obtain ⟨c0, hc0, rfl⟩ := hl
  have hisp := guardScan_ispace c0.ispace c0.dspace c0.exprs [] c hcl
  have := h c0 hc0
  intro ii hii
  apply this
  rw [Cluster.itintervals, hisp] at hii
  exact hii

theorem exceptBind_ok {e a b : Type} (x : a) (f : a → Except e b) :
    ((Except.ok x : Except e a) >>= f) = f x := rfl

theorem exceptPure_eq {e a : Type} (x y : a)
    (h : (pure x : Except e a) = .ok y) : x = y := by
  have h2 : (Except.ok x : Except e a) = .ok y := h
  cases h2
  rfl

/-- All clusters of all groups are free of `Any` directions. -/
def PGNoAny (g : ClusterGroup) : Prop :=
  ∀ c ∈ g.clusters, NoAnyC c

/-- C2.  Whenever the full `clusterize` pipeline succeeds, no
`IterationInterval` of any output cluster carries direction `Any`: the
enforcement pass resolves every position (including the widened dimensions
of backlogged clusters, which are reinserted as `Any` only to be resolved by
the recursive `enforce` call), and the topological-sort, lifting, fusion and
guarding passes never reintroduce an `Any`. -/
theorem claim_C2 (exprs : List LoweredEq) (out : List Cluster)
    (h : clusterize exprs = .ok out) :
    ∀ c ∈ out, ∀ ii ∈ c.itintervals, ii.dir ≠ Direction.Any := by
  rw [clusterize] at h
  cases h1 : Queue.process Cluster.itintervals (fun es p => enforce es p)
      (exprs.map (fun e => Cluster.mk [e] e.ispace e.dspace [])) with
  | error e =>
    rw [h1] at h
    exact absurd h (by simp [Bind.bind, Except.bind])
  | ok cl1 =>
    rw [h1] at h
    simp only [exceptBind_ok] at h
    have hNA1 : ∀ c ∈ cl1, NoAnyC c := by
      rw [Queue.process] at h1
      intro c hc
      apply noAnyC_of_resolvedFrom
      have := qprocF_enforce_spec _ _ 1 [] cl1 (by omega) (by simp)
        (by simp) h1 c hc
      exact this.2
    cases h2 : Queue.process ClusterGroup.itintervals
        (fun es p => do
          let ts ← toposort es p
          pure (aggregate ts p))
        (cl1.map (fun c => ClusterGroup.mk [c] c.itintervals)) with
    | error e =>
      rw [h2] at h
      exact absurd h (by simp [Bind.bind, Except.bind])
    | ok cg2 =>
      rw [h2] at h
      simp only [exceptBind_ok] at h
      have hPG2 : ∀ g ∈ cg2, PGNoAny g := by
        rw [Queue.process] at h2
        refine qprocF_preserve _ _ PGNoAny ?_ _ _ _ _ _ h2 ?_
        · intro es p out2 hin hcb2
          cases hts : toposort es p with
          | error e =>
            rw [hts] at hcb2
            exact absurd hcb2 (by simp [Bind.bind, Except.bind])
          | ok ts =>
            rw [hts] at hcb2
            simp only [exceptBind_ok] at hcb2
            have hout2 : aggregate ts p = out2 := exceptPure_eq _ _ hcb2
            rw [← hout2]
            intro g hg
            have hgag : g = ⟨(ts.map ClusterGroup.clusters).flatten, p⟩ := by
              simpa [aggregate] using hg
            rw [hgag]
            intro c hc
            simp only [List.mem_flatten, List.mem_map] at hc
            obtain ⟨l, ⟨g2, hg2, rfl⟩, hcl⟩ := hc
            exact hin g2 (toposort_sub es p ts hts g2 hg2) c hcl
        · intro g hg
          simp only [List.mem_map] at hg
          obtain ⟨c, hc, rfl⟩ := hg
          intro c2 hc2
          have : c2 = c := by simpa using hc2
          rw [this]
          exact hNA1 c hc
      have hNA2 : ∀ c ∈ ClusterGroup.concatenate cg2, NoAnyC c := by
        intro c hc
        simp only [ClusterGroup.concatenate, List.mem_flatten,
          List.mem_map] at hc
        obtain ⟨l, ⟨g, hg, rfl⟩, hcl⟩ := hc
        exact hPG2 g hg c hcl
      rw [optimize] at h
      cases h3 : Queue.process Cluster.itintervals
          (fun es p => pure (lift es p))
          (ClusterGroup.concatenate cg2) with
      | error e =>
        rw [h3] at h
        exact absurd h (by simp [Bind.bind, Except.bind])
      | ok cl3 =>
        rw [h3] at h
        simp only [exceptBind_ok] at h
        have hNA3 : ∀ c ∈ cl3, NoAnyC c := by
          rw [Queue.process] at h3
          refine qprocF_preserve _ _ NoAnyC ?_ _ _ _ _ _ h3 hNA2
          intro es p out3 hin hcb3
          have hout3 : lift es p = out3 := exceptPure_eq _ _ hcb3
          rw [← hout3]
          intro c hc
          rcases lift_mem es p c hc with h4 | ⟨c0, hc0, rfl⟩
          · exact hin c h4
          · exact noAnyC_projectCluster _ c0 (hin c0 hc0)
        have hout : guard (fuse cl3) = out := exceptPure_eq _ _ h
        rw [← hout]
        exact guard_noAny _ (fuse_noAny _ hNA3)

/-- Writes `v[x]`; no dependences, no conditionals. -/
def eV : LoweredEq := ⟨0, [], [⟨sV, [(1, 0)]⟩], true, false, [], ispX, ds0⟩

theorem claim_C2_witness :
    clusterize [eV] = .ok ((clusterize [eV]).toOption.getD []) ∧
    ∀ c ∈ (clusterize [eV]).toOption.getD [],
      ∀ ii ∈ c.itintervals, ii.dir ≠ Direction.Any :=
  ⟨by decide, claim_C2 [eV] _ (by decide)⟩

/-- Equation order is preserved by the guard scan: the emitted clusters
concatenate back to the pending free run followed by the remaining
equations. -/
theorem guardScan_exprs (isp : IterationSpace) (dsp : DataSpace) :
    ∀ (es free : List LoweredEq),
      ((guardScan isp dsp free es).map Cluster.exprs).flatten = free ++ es := by
  intro es
  induction es with
  | nil =>
    intro free
    rw [guardScan]
    split
    · next hf =>
      rw [List.isEmpty_iff.mp hf]
      simp
    · simp
  | cons e es ih =>
    intro free
    rw [guardScan]
    split
    · rw [ih (free ++ [e])]
      simp
    · split
      · next hf =>
        rw [List.isEmpty_iff.mp hf]
        simp [ih []]
      · simp [ih []]

/-- Shape of every cluster emitted by the guard scan. -/
theorem guardScan_shape (isp : IterationSpace) (dsp : DataSpace) :
    ∀ (es free : List LoweredEq), (∀ e ∈ free, e.conditionals = []) →
      ∀ c ∈ guardScan isp dsp free es,
        c.exprs ≠ [] ∧ c.ispace = isp ∧ c.dspace = dsp ∧
        ((c.guards = [] ∧ ∀ e ∈ c.exprs, e.conditionals = []) ∨
         (∃ e, c.exprs = [e] ∧ e.conditionals ≠ [] ∧
           c.guards = mkGuards e.conditionals)) := by
  intro es
  induction es with
  | nil =>
    intro free hfree c hc
    rw [guardScan] at hc
    split at hc
    · exact absurd hc (List.not_mem_nil c)
    · next hf =>
      have hc2 : c = ⟨free, isp, dsp, []⟩ := by simpa using hc
      subst hc2
      exact ⟨by simpa using hf, rfl, rfl, Or.inl ⟨rfl, hfree⟩⟩
  | cons e es ih =>
    intro free hfree c hc
    rw [guardScan] at hc
    split at hc
    · next hce =>
      refine ih (free ++ [e]) ?_ c hc
      intro e2 he2
      rcases List.mem_append.mp he2 with h1 | h1
      · exact hfree e2 h1
      · have : e2 = e := by simpa using h1
        rw [this]
        exact List.isEmpty_iff.mp (by simpa using hce)
    · next hce =>
      rcases List.mem_append.mp hc with h1 | h1
      · split at h1
        · exact absurd h1 (List.not_mem_nil c)
        · next hf =>
          have hc2 : c = ⟨free, isp, dsp, []⟩ := by simpa using h1
          subst hc2
          exact ⟨by simpa using hf, rfl, rfl, Or.inl ⟨rfl, hfree⟩⟩
      · rcases List.mem_cons.mp h1 with h2 | h2
        · subst h2
          refine ⟨by simp, rfl, rfl, Or.inr ⟨e, rfl, ?_, rfl⟩⟩
          intro hnil
          rw [hnil] at hce
          simp at hce
        · exact ih [] (by simp) c h2

/-- Scanning a run of purely unconditional equations yields at most one
unguarded cluster. -/
theorem guardScan_all_uncond (isp : IterationSpace) (dsp : DataSpace) :
    ∀ (es free : List LoweredEq), (∀ e ∈ es, e.conditionals = []) →
      guardScan isp dsp free es =
        if (free ++ es) = [] then [] else [⟨free ++ es, isp, dsp, []⟩] := by
  intro es
  induction es with
  | nil =>
    intro free _
    rw [guardScan]
    rcases hf : free with _ | ⟨a, t⟩ <;> simp
  | cons e es ih =>
    intro free hes
    rw [guardScan]
    have hce : e.conditionals = [] := hes e (by simp)
    rw [if_pos (by simpa using hce)]
    rw [ih (free ++ [e]) (fun x hx => hes x (by simp [hx]))]
    simp

theorem flatten_map_id {α : Type} (f : α → List α) :
    ∀ l : List α, (∀ x ∈ l, f x = [x]) → (l.map f).flatten = l := by
  intro l
  induction l with
  | nil => simp
  | cons a l ih =>
    intro h
    simp only [List.map_cons, List.flatten_cons, h a (by simp),
      ih (fun x hx => h x (by simp [hx]))]
    rfl

/-- C8.  Guarding is idempotent: every cluster `guard` emits is a fixed
point of the per-cluster scan (an unguarded cluster of unconditional
equations is re-emitted unchanged; a guarded single-equation cluster has its
guard recomputed to the same dictionary), so a second `guard` pass changes
nothing. -/
theorem claim_C8 : ∀ cs : List Cluster, guard (guard cs) = guard cs := by
  intro cs
  show ((guard cs).map guardCluster).flatten = guard cs
  refine flatten_map_id _ _ ?_
  intro c hc
  rw [guard, List.mem_flatten] at hc
  obtain ⟨l, hl, hcl⟩ := hc
  rw [List.mem_map] at hl
  obtain ⟨c0, _, rfl⟩ := hl
  have hshape := guardScan_shape c0.ispace c0.dspace c0.exprs [] (by simp)
    c hcl
  obtain ⟨hne, hisp, hdsp, hcases⟩ := hshape
  rcases hcases with ⟨hg, huncond⟩ | ⟨e, hexprs, hcond, hg⟩
  · rw [guardCluster, guardScan_all_uncond _ _ _ [] huncond]
    rw [if_neg (by simpa using hne)]
    simp only [List.nil_append]
    obtain ⟨ex, is, ds, gu⟩ := c
    simp only at hisp hdsp hg
    rw [hisp, hdsp, hg]
  · rw [guardCluster, hexprs, guardScan]
    rw [if_neg (by simpa using hcond)]
    rw [guardScan]
    simp only [List.isEmpty_nil, if_true, if_pos rfl]
    obtain ⟨ex, is, ds, gu⟩ := c
    simp only at hisp hdsp hg hexprs
    rw [hisp, hdsp, hg, hexprs]
    simp

theorem guard_exprs (cs : List Cluster) :
    ((guard cs).map Cluster.exprs).flatten = (cs.map Cluster.exprs).flatten := by
  induction cs with
  | nil => simp [guard]
  | cons c cs ih =>
    rw [guard] at ih ⊢
    simp only [List.map_cons, List.flatten_cons, List.map_append,
      List.flatten_append, ih]
    rw [guardCluster, guardScan_exprs]
    simp

/-- The conditional annotation of the spec's example: parent dimension
`time` (id 5), no explicit predicate, factor 2. -/
def cdTime : CondDim := ⟨5, none, 2⟩

/-- One equation (`u[t,x] = v[t,x]`) carrying that single conditional. -/
def eCond : LoweredEq := ⟨7, [], [], false, false, [cdTime], ispT, ds0⟩

/-- C7.  `guard` scans each cluster's equations in order: the flattened
equation sequence is unchanged, every emitted cluster is either an unguarded
run of unconditional equations or a single conditional equation whose guard
dictionary is `mkGuards` of its conditionals (per parent, the explicit
predicate or the default `parent % factor == 0`, conjoined); in particular
the spec's example equation with conditional list `[(time, None, 2)]` yields
one single-equation cluster guarded by `{time: time % 2 == 0}`. -/
theorem claim_C7 (cs : List Cluster) :
    ((guard cs).map Cluster.exprs).flatten = (cs.map Cluster.exprs).flatten ∧
    (∀ c ∈ guard cs,
      (c.guards = [] ∧ ∀ e ∈ c.exprs, e.conditionals = []) ∨
      (∃ e, c.exprs = [e] ∧ e.conditionals ≠ [] ∧
        c.guards = mkGuards e.conditionals)) ∧
    guard [⟨[eCond], ispT, ds0, []⟩] =
      [⟨[eCond], ispT, ds0, [(5, GuardExpr.single (Cond.condEq 5 2))]⟩] := by
  refine ⟨guard_exprs cs, ?_, by decide⟩
  intro c hc
  rw [guard, List.mem_flatten] at hc
  obtain ⟨l, hl, hcl⟩ := hc
  rw [List.mem_map] at hl
  obtain ⟨c0, _, rfl⟩ := hl
  exact (guardScan_shape c0.ispace c0.dspace c0.exprs [] (by simp) c
    hcl).2.2.2

theorem claim_C7_witness :
    ((guard [⟨[eCond], ispT, ds0, []⟩]).map Cluster.exprs).flatten =
      (([⟨[eCond], ispT, ds0, []⟩] : List Cluster).map
        Cluster.exprs).flatten ∧
    (∀ c ∈ guard [⟨[eCond], ispT, ds0, []⟩],
      (c.guards = [] ∧ ∀ e ∈ c.exprs, e.conditionals = []) ∨
      (∃ e, c.exprs = [e] ∧ e.conditionals ≠ [] ∧
        c.guards = mkGuards e.conditionals)) ∧
    guard [⟨[eCond], ispT, ds0, []⟩] =
      [⟨[eCond], ispT, ds0, [(5, GuardExpr.single (Cond.condEq 5 2))]⟩] :=
  claim_C7 [⟨[eCond], ispT, ds0, []⟩]

theorem spanKey_cons {α κ : Type} [DecidableEq κ] (key : α → κ) (k : κ)
    (x : α) (l : List α) :
    spanKey key k (x :: l) =
      if key x = k then
        (x :: (spanKey key k l).1, (spanKey key k l).2)
      else ([], x :: l) := rfl

theorem spanKey_append_of_snd_ne {α κ : Type} [DecidableEq κ] (key : α → κ)
    (k : κ) : ∀ (a b : List α), (spanKey key k a).2 ≠ [] →
      spanKey key k (a ++ b) =
        ((spanKey key k a).1, (spanKey key k a).2 ++ b) := by
  intro a
  induction a with
  | nil => intro b h; exact absurd rfl h
  | cons x xs ih =>
    intro b h
    rw [spanKey_cons] at h
    by_cases hx : key x = k
    · rw [if_pos hx] at h
      have h2 : (spanKey key k xs).2 ≠ [] := h
      rw [List.cons_append, spanKey_cons, if_pos hx, ih b h2,
        spanKey_cons, if_pos hx]
    · rw [if_neg hx] at h
      rw [List.cons_append, spanKey_cons, if_neg hx, spanKey_cons,
        if_neg hx]
      simp

theorem spanKey_append_all {α κ : Type} [DecidableEq κ] (key : α → κ)
    (k : κ) : ∀ (a b : List α), (∀ x ∈ a, key x = k) →
      (∀ y, b.head? = some y → key y ≠ k) →
      spanKey key k (a ++ b) = (a, b) := by
  intro a
  induction a with
  | nil =>
    intro b _ hb
    cases b with
    | nil => simp [spanKey]
    | cons y t =>
      simp only [List.nil_append, spanKey_cons]
      rw [if_neg (hb y rfl)]
  | cons x xs ih =>
    intro b ha hb
    rw [List.cons_append, spanKey_cons, if_pos (ha x (by simp)),
      ih b (fun z hz => ha z (by simp [hz])) hb]

theorem pyGroupBy_cons {α κ : Type} [DecidableEq κ] (key : α → κ) (x : α)
    (l : List α) :
    pyGroupBy key (x :: l) =
      (x :: (spanKey key (key x) l).1) ::
        pyGroupBy key (spanKey key (key x) l).2 := by
  rw [pyGroupBy]

theorem pyGroupBy_append {α κ : Type} [DecidableEq κ] (key : α → κ) :
    ∀ (xs ys : List α),
      (∀ x y, xs.getLast? = some x → ys.head? = some y → key x ≠ key y) →
      pyGroupBy key (xs ++ ys) = pyGroupBy key xs ++ pyGroupBy key ys := by
  suffices hs : ∀ (n : Nat) (xs ys : List α), xs.length = n →
      (∀ x y, xs.getLast? = some x → ys.head? = some y → key x ≠ key y) →
      pyGroupBy key (xs ++ ys) = pyGroupBy key xs ++ pyGroupBy key ys by
    exact fun xs ys h => hs xs.length xs ys rfl h
  intro n
  induction n using Nat.strong_induction_on with
  | _ n ih =>
    intro xs ys hn hb
    cases xs with
    | nil =>
      rw [List.nil_append]
      rw [show pyGroupBy key ([] : List α) = [] from by rw [pyGroupBy]]
      rw [List.nil_append]
    | cons x xs2 =>
      rw [List.cons_append, pyGroupBy_cons, pyGroupBy_cons]
      by_cases hs2 : (spanKey key (key x) xs2).2 = []
      · -- the head run swallows all of xs
        have hall : ∀ z ∈ xs2, key z = key x := by
          intro z hz
          have hjoin := spanKey_append_eq key (key x) xs2
          rw [hs2, List.append_nil] at hjoin
          rw [← hjoin] at hz
          exact spanKey_fst_key key (key x) xs2 z hz
        have hlast : ∀ g, (x :: xs2).getLast? = some g → key g = key x := by
          intro g hg
          have hmem := List.mem_of_mem_getLast? hg
          rcases List.mem_cons.mp hmem with h1 | h1
          · rw [h1]
          · exact hall g h1
        have hys : ∀ y, ys.head? = some y → key y ≠ key x := by
          intro y hy
          cases hgl : (x :: xs2).getLast? with
          | none => simp at hgl
          | some g =>
            have hbg := hb g y hgl hy
            rw [hlast g hgl] at hbg
            exact fun he => hbg he.symm
        rw [spanKey_append_all key (key x) xs2 ys hall
          (fun y hy he => hys y hy he)]
        have hspan : spanKey key (key x) xs2 = (xs2, []) :=
          spanKey_all key (key x) xs2 hall
        rw [hspan]
        rw [show pyGroupBy key ([] : List α) = [] from by rw [pyGroupBy]]
        simp
      · rw [spanKey_append_of_snd_ne key (key x) xs2 ys hs2]
        have hlen : (spanKey key (key x) xs2).2.length < n := by
          have := spanKey_snd_length_le key (key x) xs2
          simp only [← hn, List.length_cons]
          omega
        have hsfx : ∀ g, (spanKey key (key x) xs2).2.getLast? = some g →
            (x :: xs2).getLast? = some g := by
          intro g hg
          have hjoin := spanKey_append_eq key (key x) xs2
          rw [show (x :: xs2) = (x :: (spanKey key (key x) xs2).1) ++
              (spanKey key (key x) xs2).2 by
            rw [List.cons_append, hjoin]]
          rw [List.getLast?_append_of_ne_nil _ hs2]
          exact hg
        rw [ih _ hlen (spanKey key (key x) xs2).2 ys rfl
          (fun g y hg hy => hb g y (hsfx g hg) hy)]
        simp

theorem fuse_append (xs ys : List Cluster)
    (hb : ∀ x y, xs.getLast? = some x → ys.head? = some y →
      x.itintervals ≠ y.itintervals) :
    fuse (xs ++ ys) = fuse xs ++ fuse ys := by
  rw [fuse, fuse, fuse, pyGroupBy_append Cluster.itintervals xs ys hb]
  simp

/-- C4.  For a maximal run of adjacent clusters sharing one full
iteration-interval tuple (neighbours on either side, if any, have a
different tuple), `fuse` leaves the run untouched when its length is 1 or a
member carries a guard, and otherwise replaces it by the single merged
cluster whose equation list concatenates the members' equations in order;
clusters outside the run are fused independently, so clusters with
different tuples or with guards are never merged. -/
theorem claim_C4 (pre run post : List Cluster) (k : List IterationInterval)
    (hrun : run ≠ []) (hk : ∀ c ∈ run, c.itintervals = k)
    (hpre : ∀ c, pre.getLast? = some c → c.itintervals ≠ k)
    (hpost : ∀ c, post.head? = some c → c.itintervals ≠ k) :
    fuse (pre ++ run ++ post) =
      fuse pre ++
      (if run.length = 1 ∨ ∃ c ∈ run, c.guards ≠ [] then run
        else [Cluster.from_clusters run]) ++
      fuse post ∧
    (Cluster.from_clusters run).exprs = (run.map Cluster.exprs).flatten := by
  constructor
  · have hmid : fuse (run ++ post) = fuse run ++ fuse post := by
      refine fuse_append run post ?_
      intro x y hx hy
      rw [hk x (List.mem_of_mem_getLast? hx)]
      exact fun he => hpost y hy he.symm
    have hsplit : fuse (pre ++ run ++ post) =
        fuse pre ++ fuse (run ++ post) := by
      rw [List.append_assoc]
      refine fuse_append pre (run ++ post) ?_
      intro x y hx hy
      have hyr : y ∈ run := by
        cases run with
        | nil => exact absurd rfl hrun
        | cons r t =>
          have hyr2 : r = y := by simpa using hy
          rw [← hyr2]
          simp
      rw [hk y hyr]
      exact hpre x hx
    rw [hsplit, hmid]
    have hone : fuse run =
        if run.length = 1 ∨ ∃ c ∈ run, c.guards ≠ [] then run
        else [Cluster.from_clusters run] := by
      rw [fuse]
      rw [pyGroupBy_const Cluster.itintervals k run hrun hk]
      simp only [List.map_cons, List.map_nil, List.flatten_cons,
        List.flatten_nil, List.append_nil]
      by_cases hcond : run.length = 1 ∨ ∃ c ∈ run, c.guards ≠ []
      · rw [if_pos hcond]
        have hbool : (run.length == 1 ||
            run.any (fun c => !c.guards.isEmpty)) = true := by
          rcases hcond with h1 | ⟨c, hc, hg⟩
          · simp [h1]
          · refine Bool.or_eq_true_iff.mpr (Or.inr ?_)
            rw [List.any_eq_true]
            exact ⟨c, hc, by simpa using hg⟩
        rw [hbool]
        simp
      · rw [if_neg hcond]
        have hbool : (run.length == 1 ||
            run.any (fun c => !c.guards.isEmpty)) = false := by
          rw [Bool.or_eq_false_iff]
          constructor
          · simp only [beq_eq_false_iff_ne, ne_eq]
            exact fun h1 => hcond (Or.inl h1)
          · rw [List.any_eq_false]
            intro c hc
            simp only [Bool.not_eq_true, Bool.not_eq_false]
            by_contra hg
            exact hcond (Or.inr ⟨c, hc, by simpa using hg⟩)
        rw [hbool]
        simp
    rw [hone, List.append_assoc]
  · cases run with
    | nil => exact absurd rfl hrun
    | cons c t => rfl

theorem claim_C4_witness :
    (([cA, cB] : List Cluster) ≠ [] ∧
      (∀ c ∈ ([cA, cB] : List Cluster),
        c.itintervals = Cluster.itintervals cA)) ∧
    (fuse ([] ++ [cA, cB] ++ []) =
      fuse [] ++
      (if ([cA, cB] : List Cluster).length = 1 ∨
          ∃ c ∈ ([cA, cB] : List Cluster), c.guards ≠ [] then [cA, cB]
        else [Cluster.from_clusters [cA, cB]]) ++
      fuse [] ∧
      (Cluster.from_clusters [cA, cB]).exprs =
        (([cA, cB] : List Cluster).map Cluster.exprs).flatten) :=
  ⟨⟨by decide, by decide⟩,
   claim_C4 [] [cA, cB] [] (Cluster.itintervals cA) (by decide) (by decide)
     (by simp) (by simp)⟩

/-- Accesses of a shared symbol `s` (id 3) over dimension id 9, used to
exhibit the `break` in `build_dag`'s inner loop. -/
def sS : Sym := ⟨3, false⟩

/-- Reads `s[j+1]`. -/
def eRs : LoweredEq := ⟨10, [⟨sS, [(9, 1)]⟩], [], true, false, [], ispX, ds0⟩

/-- Writes `s[j]`. -/
def eWs1 : LoweredEq := ⟨11, [], [⟨sS, [(9, 0)]⟩], true, false, [], ispX, ds0⟩

/-- Writes `s[j]` (a second, distinct writer). -/
def eWs2 : LoweredEq := ⟨12, [], [⟨sS, [(9, 0)]⟩], true, false, [], ispX, ds0⟩

def gx0 : ClusterGroup := ⟨[⟨[eRs], ispX, ds0, []⟩], []⟩

def gx1 : ClusterGroup := ⟨[⟨[eWs1], ispX, ds0, []⟩], []⟩

def gx2 : ClusterGroup := ⟨[⟨[eWs2], ispX, ds0, []⟩], []⟩

/-- C5 counterexample.  The pair `(gx0, gx2)` satisfies the claimed edge
condition (an anti-dependence between the two groups absent from either
group alone), yet `build_dag` adds no edge for it: the inner loop `break`s
after adding `gx0 → gx1`, so the claim's clause "every pair satisfying (a)
or (b) gets such an edge" is false. -/
theorem claim_C5_counterexample :
    dagCond gx0 gx2 [] = true ∧
    (build_dag [gx0, gx1, gx2] []).edges = [(gx0, gx1)] ∧
    (gx0, gx2) ∉ (build_dag [gx0, gx1, gx2] []).edges := by
  refine ⟨by decide, by decide, ?_⟩
  intro h
  have : (gx0, gx2) ∈ [(gx0, gx1)] := by
    have he : (build_dag [gx0, gx1, gx2] []).edges = [(gx0, gx1)] := by decide
    rw [← he]
    exact h
  simp only [List.mem_singleton, Prod.mk.injEq] at this
  exact absurd this.2 (by decide)

/-- C5 amended.  `build_dag` adds an edge `(a, b)` exactly when `b` is the
first group after an occurrence of `a` satisfying the dependence condition
(an anti-dependence between the groups not local to either, or a non-local
flow-dependence whose cause leaves the prefix); later pairs for the same
`a` are not examined (`first match wins` per the inner `break`). -/
theorem claim_C5_amended (gs : List ClusterGroup)
    (pfx : List IterationInterval) (a b : ClusterGroup) :
    (a, b) ∈ (build_dag gs pfx).edges ↔
      ∃ pre post, gs = pre ++ a :: post ∧
        post.find? (fun g => dagCond a g (pfx.map (fun ii => ii.dim.id))) =
          some b := by
  rw [build_dag]
  induction gs with
  | nil =>
    simp only [dagEdges, List.not_mem_nil, false_iff]
    rintro ⟨pre, post, heq, _⟩
    exact absurd heq (by simp)
  | cons g rest ih =>
    rw [dagEdges]
    constructor
    · intro h
      rcases List.mem_append.mp h with h1 | h1
      · cases hf : rest.find?
            (fun g1 => dagCond g g1 (pfx.map (fun ii => ii.dim.id))) with
        | none =>
          rw [hf] at h1
          exact absurd h1 (List.not_mem_nil _)
        | some t =>
          rw [hf] at h1
          have hab : a = g ∧ b = t := by simpa using h1
          refine ⟨[], rest, by simp [hab.1], ?_⟩
          rw [← hab.1] at hf
          rw [hf, hab.2]
      · obtain ⟨pre, post, heq, hfind⟩ := ih.mp h1
        exact ⟨g :: pre, post, by simp [heq], hfind⟩
    · rintro ⟨pre, post, heq, hfind⟩
      cases pre with
      | nil =>
        simp only [List.nil_append, List.cons.injEq] at heq
        obtain ⟨hga, hrp⟩ := heq
        subst hga
        subst hrp
        rw [List.mem_append]
        left
        rw [hfind]
        simp
      | cons p pre2 =>
        simp only [List.cons_append, List.cons.injEq] at heq
        rw [List.mem_append]
        right
        exact ih.mpr ⟨pre2, post, heq.2, hfind⟩

def cgA : ClusterGroup := ⟨[], [iiX]⟩

def cgB : ClusterGroup := ⟨[], []⟩

/-- C9 counterexample.  With nothing scheduled yet, `choose_element` runs
`queue.pop()`, removing the most recently inserted ready node (`cgB`, the
right end of the deque), not the oldest-inserted one (`cgA`) as the claim
states. -/
theorem claim_C9_counterexample :
    choose_element [cgA, cgB] [] = some (cgB, [cgA]) ∧ cgB ≠ cgA := by
  decide

/-- C9 amended.  With nothing scheduled yet, `choose_element` removes the
most recently inserted ready node; once something is scheduled it removes
the first queued node that writes no temporary array and matches the last
scheduled node's iteration-interval tuple, and only when no such node
exists does it remove the oldest-inserted ready node. -/
theorem claim_C9_amended (q sched : List ClusterGroup) (hq : q ≠ []) :
    (sched = [] →
      choose_element q sched = some (q.getLastD cgDefault, q.dropLast)) ∧
    (∀ last, sched.getLast? = some last →
      (∀ qpre i qpost,
        q = qpre ++ i :: qpost →
        (!(hasArrayWrite i) && i.itintervals == last.itintervals) = true →
        (∀ y ∈ qpre,
          (!(hasArrayWrite y) && y.itintervals == last.itintervals) =
            false) →
        choose_element q sched = some (i, qpre ++ qpost)) ∧
      ((∀ i ∈ q,
        (!(hasArrayWrite i) && i.itintervals == last.itintervals) = false) →
        choose_element q sched = some (q.headD cgDefault, q.tail))) := by
  constructor
  · intro hs
    subst hs
    rw [choose_element, if_neg hq]
    rfl
  · intro last hlast
    constructor
    · intro qpre i qpost hdec hcond hpre
      rw [choose_element, if_neg hq, hlast]
      have hfind : q.find? (fun j =>
          !(hasArrayWrite j) && j.itintervals == last.itintervals) =
          some i := by
        rw [List.find?_eq_some]
        refine ⟨hcond, qpre, qpost, hdec, ?_⟩
        intro y hy
        rw [hpre y hy]
        rfl
      simp only [hfind]
      have hni : i ∉ qpre := by
        intro hmem
        rw [hpre i hmem] at hcond
        exact absurd hcond (by simp)
      rw [hdec, List.erase_append_right _ hni, List.erase_cons_head]
    · intro hnone
      rw [choose_element, if_neg hq, hlast]
      have hfind : q.find? (fun j =>
          !(hasArrayWrite j) && j.itintervals == last.itintervals) =
          none := by
        rw [List.find?_eq_none]
        intro x hx
        rw [hnone x hx]
        simp
      simp only [hfind]

theorem claim_C9_amended_witness :
    (([cgA, cgB] : List ClusterGroup) ≠ []) ∧
    ((([] : List ClusterGroup) = [] →
      choose_element [cgA, cgB] [] =
        some (([cgA, cgB] : List ClusterGroup).getLastD cgDefault,
          ([cgA, cgB] : List ClusterGroup).dropLast)) ∧
    (∀ last, ([] : List ClusterGroup).getLast? = some last →
      (∀ qpre i qpost,
        ([cgA, cgB] : List ClusterGroup) = qpre ++ i :: qpost →
        (!(hasArrayWrite i) && i.itintervals == last.itintervals) = true →
        (∀ y ∈ qpre,
          (!(hasArrayWrite y) && y.itintervals == last.itintervals) =
            false) →
        choose_element [cgA, cgB] [] = some (i, qpre ++ qpost)) ∧
      ((∀ i ∈ ([cgA, cgB] : List ClusterGroup),
        (!(hasArrayWrite i) && i.itintervals == last.itintervals) = false) →
        choose_element [cgA, cgB] [] =
          some (([cgA, cgB] : List ClusterGroup).headD cgDefault,
            ([cgA, cgB] : List ClusterGroup).tail)))) :=
  ⟨by decide, claim_C9_amended [cgA, cgB] [] (by decide)⟩

/-- C6: `lift` splits its output as lifted clusters followed by the
non-lifted ones. Every non-lifted cluster is an input cluster unchanged.
Every lifted cluster arises from an input cluster none of whose equations
is an increment/reduction (so such a cluster is never selected) and which
passes the whole-symbol safety check - no other cluster of the sibling set
writes a symbol it reads or writes - and equals that cluster with the
prefix dimensions projected out of its iteration and data spaces. -/
theorem claim_C6 (cs : List Cluster) (pfx : List IterationInterval) :
    ∃ L P : List Cluster,
      lift cs pfx = L ++ P ∧
      (∀ c ∈ P, c ∈ cs) ∧
      (∀ c' ∈ L, ∃ i, ∃ h : i < cs.length,
        (∀ e ∈ (cs.get ⟨i, h⟩).exprs, e.is_Increment = false) ∧
        (∀ j ∈ cs.eraseIdx i,
          hasCommonSym (cs.get ⟨i, h⟩).functions (writesOf j.exprs) =
            false) ∧
        c' = projectCluster (pfx.map (fun ii => ii.dim.id))
          (cs.get ⟨i, h⟩)) := by
  by_cases hp : pfx = []
  · exact ⟨[], cs, by simp [lift, hp], fun c hc => hc,
      fun c' hc' => absurd hc' (List.not_mem_nil c')⟩
  · by_cases hc : cs.any (liftCandidate (pfx.map (fun ii => ii.dim.id)))
    · refine ⟨(cs.enum.foldl
          (liftStep cs (pfx.map (fun ii => ii.dim.id))) ([], [])).1,
        (cs.enum.foldl
          (liftStep cs (pfx.map (fun ii => ii.dim.id))) ([], [])).2,
        ?_, ?_, ?_⟩
      · simp [lift, hp, hc]
      · intro c hcm
        rcases (liftFold_mem cs (pfx.map (fun ii => ii.dim.id))
            cs.enum ([], []) c).2 hcm with h1 | h1
        · exact absurd h1 (List.not_mem_nil c)
        · obtain ⟨p, hpm, hx⟩ := h1
          have hpe := List.mem_enum hpm
          rw [hx, hpe.2]
          exact List.getElem_mem hpe.1
      · intro c' hcm
        rcases (liftFold_mem cs (pfx.map (fun ii => ii.dim.id))
            cs.enum ([], []) c').1 hcm with h1 | h1
        · exact absurd h1 (List.not_mem_nil c')
        · obtain ⟨p, hpm, hcond, hx⟩ := h1
          have hpe := List.mem_enum hpm
          rcases Bool.and_eq_true_iff.mp hcond with ⟨hcand, hsafe⟩
          have hget : cs.get ⟨p.1, hpe.1⟩ = p.2 := hpe.2.symm
          refine ⟨p.1, hpe.1, ?_, ?_, ?_⟩
          · rw [hget]
            simp only [liftCandidate, Bool.and_eq_true,
              Bool.not_eq_true'] at hcand
            intro e he
            simpa using List.any_eq_false.mp hcand.1.2 e he
          · rw [hget]
            simp only [liftSafe, Bool.not_eq_true'] at hsafe
            intro j hj
            simpa using List.any_eq_false.mp hsafe j hj
          · rw [hget, hx]
    · refine ⟨[], cs, ?_, fun c hcc => hcc,
        fun c' hc' => absurd hc' (List.not_mem_nil c')⟩
      simp only [lift]
      rw [if_neg hp, if_pos (by simpa using hc)]
      simp
